import Mathlib

/-!
Verification development for the indexed red-black tree of `scenic`
(`src/data_structures/red_black_tree.rs`).

The embedding is a shallow functional model of the pointer structure:

* Every heap-allocated `RedBlackTreeNode` is modelled by a tree node that
  carries its own stable allocation identity `addr` (the `Pin<Box>` address),
  the identity `key` of the borrowed key handle (the `*const T` the `NodeCache`
  is keyed by), its `color`, and the recorded `pos : TreePosition` field.
* The `NodeCache` hash map is modelled by an association list `cache` with
  hash-map semantics (`insert` overwrites, `remove` deletes the key's entry).
* Panics (`unwrap`, `expect`, `unimplemented!`) are modelled by `Option`:
  `none` means the operation aborts.
* `repair_tree` walks from a node towards the root through parent pointers;
  this is modelled by a zipper: the focused subtree plus the list of ancestor
  frames (innermost first).
-/

set_option maxHeartbeats 1600000

namespace Scenic

/-- `Color` from the source: each node is `Red` or `Black`. -/
inductive Color where
  | red
  | black
  deriving DecidableEq

/-- `ChildType` from the source: the side on which a child hangs. -/
inductive ChildType where
  | left
  | right
  deriving DecidableEq

/-- `ChildType::flip`: return the opposite side. -/
def ChildType.flip : ChildType → ChildType
  | .left => .right
  | .right => .left

/-- `TreePosition` from the source: a node is attached either at the root
slot or as the given side child of the parent node with the given address. -/
inductive TreePosition where
  | root
  | child (parent : Nat) (side : ChildType)
  deriving DecidableEq

/-- `TreePosition::is_root`. -/
def TreePosition.isRoot : TreePosition → Bool
  | .root => true
  | .child _ _ => false

/-- A `NodeContainer` is an optional owned node; `nil` is the empty container
(a leaf slot).  A `node` carries the allocation address `addr`, the key-handle
identity `key`, the `color`, the recorded `pos` field, and the two owned
children `l` and `r`. -/
inductive RBTree where
  | nil
  | node (addr key : Nat) (color : Color) (pos : TreePosition) (l r : RBTree)
  deriving DecidableEq

namespace RBTree

/-- `RedBlackTreeNode::node_color`: an empty slot counts as black. -/
def rootColor : RBTree → Color
  | .nil => .black
  | .node _ _ c _ _ _ => c

/-- Overwrite the color of the root node of a subtree (a `node.color = c`
assignment through a pointer to that node). -/
def paintRoot (c : Color) : RBTree → RBTree
  | .nil => .nil
  | .node a k _ p l r => .node a k c p l r

/-- Overwrite the color of the root of the `d`-side child (a
`node.child(d).color = c` assignment). -/
def paintChild (d : ChildType) (c : Color) : RBTree → RBTree
  | .nil => .nil
  | .node a k c0 p l r =>
    match d with
    | .left => .node a k c0 p (paintRoot c l) r
    | .right => .node a k c0 p l (paintRoot c r)

/-- Overwrite the recorded position field of the root node of a subtree (the
position write performed by `TreePosition::set_pinned`; writing to an empty
container does nothing). -/
def setRootPos : RBTree → TreePosition → RBTree
  | .nil, _ => .nil
  | .node a k c _ l r, p => .node a k c p l r

/-- In-order association list of `(key identity, node address)` pairs of all
nodes of a subtree. -/
def treeAssoc : RBTree → List (Nat × Nat)
  | .nil => []
  | .node a k _ _ l r => treeAssoc l ++ (k, a) :: treeAssoc r

/-- Key identity held by the node with address `q`, if that node is in the
subtree. -/
def keyAt : RBTree → Nat → Option Nat
  | .nil, _ => none
  | .node a k _ _ l r, q =>
    if a = q then some k else
      match keyAt l q with
      | some x => some x
      | none => keyAt r q

/-- Overwrite the key reference of the node with address `q` (a `node.key`
assignment through a pointer to that node). -/
def setKeyAt : RBTree → Nat → Nat → RBTree
  | .nil, _, _ => .nil
  | .node a k c p l r, q, k' =>
    .node a (if a = q then k' else k) c p (setKeyAt l q k') (setKeyAt r q k')

/-- Erase all key fields (used to state that an operation changes nothing
except which keys the nodes hold). -/
def eraseKeys : RBTree → RBTree
  | .nil => .nil
  | .node a _ c p l r => .node a 0 c p (eraseKeys l) (eraseKeys r)

/-- `RedBlackTreeNode::rotate`, translated field write by field write.
Rotating left promotes the right child; rotating right promotes the left
child.  `none` models the `unwrap` panic when the promoted child is absent.
The promoted child takes over the rotated node's recorded position; the
rotated node and the pivot child get their position fields rewritten by the
`set_child` calls. -/
def rotate : RBTree → ChildType → Option RBTree
  | .nil, _ => none
  | .node a k c p l r, .left =>
    match r with
    | .nil => none
    | .node ra rk rc _ rl rr =>
      some (.node ra rk rc p
        (.node a k c (.child ra .left) l (setRootPos rl (.child a .right)))
        rr)
  | .node a k c p l r, .right =>
    match l with
    | .nil => none
    | .node la lk lc _ ll lr =>
      some (.node la lk lc p
        ll
        (.node a k c (.child la .right) (setRootPos lr (.child a .left)) r))

end RBTree

/-- One ancestor frame of the zipper: the focus hangs on side `ct` of a
parent node with address `addr`, key `key`, color `color`, recorded position
`pos`, whose other child is the subtree `sib`. -/
structure Frame where
  ct : ChildType
  addr : Nat
  key : Nat
  color : Color
  pos : TreePosition
  sib : RBTree
  deriving DecidableEq

/-- Rebuild the parent node of a frame around a subtree in the hole. -/
def assemble (f : Frame) (t : RBTree) : RBTree :=
  match f.ct with
  | .left => .node f.addr f.key f.color f.pos t f.sib
  | .right => .node f.addr f.key f.color f.pos f.sib t

/-- Rebuild the whole tree from a zipper (frames listed innermost first). -/
def plug : RBTree → List Frame → RBTree
  | t, [] => t
  | t, f :: rest => plug (assemble f t) rest

/-- The `TreePosition` of the hole of a zipper: the root slot when there are
no frames, otherwise the `ct`-side child slot of the innermost frame. -/
def posOfCtx : List Frame → TreePosition
  | [] => .root
  | f :: _ => .child f.addr f.ct

/-- Insert case 3 of `repair_tree`: recolor the parent (frame `f`) black,
the uncle (sibling in frame `g`) black, and the grandparent (frame `g`) red;
the grandparent subtree rebuilt this way is the node repair recurses at. -/
def case3Focus (f g : Frame) (focus : RBTree) : RBTree :=
  assemble { g with color := Color.red, sib := g.sib.paintRoot .black }
    (assemble { f with color := Color.black } focus)

/-- The zig-zag straightening step of insert case 4: depending on the child
sides of the node and of its parent, either keep the parent subtree as is, or
first rotate the parent; also yields the direction the grandparent is rotated
in afterwards. -/
def case4Pre (focus : RBTree) (f g : Frame) : Option (RBTree × ChildType) :=
  match f.ct, g.ct with
  | .left, .left => some (assemble f focus, ChildType.right)
  | .right, .right => some (assemble f focus, ChildType.left)
  | .right, .left =>
    (RBTree.rotate (assemble f focus) .left).map (fun t => (t, ChildType.right))
  | .left, .right =>
    (RBTree.rotate (assemble f focus) .right).map (fun t => (t, ChildType.left))

/-- Insert case 4 of `repair_tree`: straighten a zig-zag, rotate the
grandparent, then recolor the promoted (new) parent black and the demoted
grandparent (now its `d`-side child) red, and rebuild the whole tree. -/
def repairCase4 (focus : RBTree) (f g : Frame) (rest2 : List Frame) : Option RBTree :=
  match case4Pre focus f g with
  | none => none
  | some (pSub, d) =>
    match RBTree.rotate (assemble g pSub) d with
    | none => none
    | some gSub =>
      some (plug ((gSub.paintRoot .black).paintChild d .red) rest2)

/-- `RedBlackTreeNode::repair_tree`, translated case by case on the zipper.

* no frame: insert case 1 — the node is the root, color it black;
* innermost frame black: insert case 2 — nothing to do;
* innermost frame red, no further frame: the `expect` panic ("parent node is
  red, so it should not be the root") — `none`;
* parent red, uncle red: insert case 3 — recolor and recurse at the
  grandparent;
* parent red, uncle black or absent: insert case 4. -/
def repairZ : RBTree → List Frame → Option RBTree
  | focus, [] => some (focus.paintRoot .black)
  | focus, ⟨ct, a, k, .black, p, sib⟩ :: rest =>
    some (plug focus (⟨ct, a, k, .black, p, sib⟩ :: rest))
  | _, ⟨_, _, _, .red, _, _⟩ :: [] => none
  | focus, ⟨ct, a, k, .red, p, sib⟩ :: g :: rest2 =>
    if g.sib.rootColor = Color.red then
      repairZ (case3Focus ⟨ct, a, k, .red, p, sib⟩ g focus) rest2
    else
      repairCase4 focus ⟨ct, a, k, .red, p, sib⟩ g rest2

/-- Caller-driven descent from a subtree along a path of child sides,
accumulating zipper frames (models a chain of `left_child`/`right_child`
cursor moves).  Returns the frames and the subtree (possibly `nil`, i.e. a
`LeafCursor`) the path ends at; `none` if the path walks through an empty
slot (no such cursor can be produced). -/
def descend : RBTree → List ChildType → List Frame → Option (List Frame × RBTree)
  | t, [], ctx => some (ctx, t)
  | .nil, _ :: _, _ => none
  | .node a k c p l r, .left :: path, ctx =>
    descend l path (⟨.left, a, k, c, p, r⟩ :: ctx)
  | .node a k c p l r, .right :: path, ctx =>
    descend r path (⟨.right, a, k, c, p, l⟩ :: ctx)

/-- `HashMap::get` on the node cache. -/
def cacheLookup (k : Nat) (c : List (Nat × Nat)) : Option Nat :=
  (c.find? (fun e => e.1 = k)).map (·.2)

/-- `HashMap::remove` on the node cache (hash-map keys are unique, so
removing the key's entry is filtering it out). -/
def cacheRemove (k : Nat) (c : List (Nat × Nat)) : List (Nat × Nat) :=
  c.filter (fun e => ¬ e.1 = k)

/-- `HashMap::insert` on the node cache: overwrites any existing entry. -/
def cacheInsert (k a : Nat) (c : List (Nat × Nat)) : List (Nat × Nat) :=
  (k, a) :: cacheRemove k c

/-- The state of a `RedBlackTree`: the root container, the `NodeCache`, and
the next fresh allocation address (Rust allocations are modelled as increasing
addresses). -/
structure RBState where
  root : RBTree
  cache : List (Nat × Nat)
  nextAddr : Nat
  deriving DecidableEq

/-- `RedBlackTree::new()`. -/
def emptyState : RBState := ⟨.nil, [], 0⟩

/-- `LeafCursor::insert`, driven by a caller descent `path` to the slot: if
the path reaches an empty slot, allocate a red node there (with its position
descriptor set to the slot), register the key identity in the cache, then run
`repair_tree` at the new node.  Returns the new state together with the
address of the node the returned `NodeCursor` points at.  `none` models a
path that does not lead to an insertable leaf slot, or a repair panic. -/
def insertOp (s : RBState) (path : List ChildType) (k : Nat) :
    Option (RBState × Nat) :=
  match descend s.root path [] with
  | some (ctx, .nil) =>
    let a := s.nextAddr
    let newNode : RBTree := .node a k .red (posOfCtx ctx) .nil .nil
    match repairZ newNode ctx with
    | some t => some (⟨t, cacheInsert k a s.cache, s.nextAddr + 1⟩, a)
    | none => none
  | _ => none

/-- `NodeCursor::delete`, driven by a caller descent `path` to the node:
remove the node's cache entry; if one child slot is empty, the other child
(or the empty slot) replaces the node at its position (taking over its
recorded position).  A two-child node hits `unimplemented!()` (`none`).  If
the replacement is a node: when the deleted node's recorded position is the
root slot it is recolored black, otherwise `unimplemented!()` (`none`). -/
def deleteOp (s : RBState) (path : List ChildType) : Option RBState :=
  match descend s.root path [] with
  | some (ctx, .node _ k _ p l r) =>
    let cache' := cacheRemove k s.cache
    match (if l = RBTree.nil then some r else if r = RBTree.nil then some l else none) with
    | none => none
    | some repl =>
      match RBTree.setRootPos repl p with
      | .nil => some ⟨plug .nil ctx, cache', s.nextAddr⟩
      | .node a' k' c' p' l' r' =>
        if p.isRoot then
          some ⟨plug (RBTree.paintRoot .black (.node a' k' c' p' l' r')) ctx,
            cache', s.nextAddr⟩
        else none
  | _ => none

/-- `RedBlackTree::swap`: remove both cache entries (an absent key is an
`unwrap` panic, `none`), swap the key references of the two nodes the entries
pointed at, and re-insert both keys mapped to their new nodes. -/
def swapOp (s : RBState) (k1 k2 : Nat) : Option RBState :=
  match cacheLookup k1 s.cache with
  | none => none
  | some a1 =>
    let c1 := cacheRemove k1 s.cache
    match cacheLookup k2 c1 with
    | none => none
    | some a2 =>
      let c2 := cacheRemove k2 c1
      match s.root.keyAt a1, s.root.keyAt a2 with
      | some x1, some x2 =>
        some ⟨RBTree.setKeyAt (RBTree.setKeyAt s.root a1 x2) a2 x1,
          cacheInsert x1 a2 (cacheInsert x2 a1 c2), s.nextAddr⟩
      | _, _ => none

/-- `RedBlackTree::get`: the O(1) jump from a key-handle identity to the
address of the node its cache entry points at; `None` when unindexed. -/
def getOp (s : RBState) (k : Nat) : Option Nat :=
  cacheLookup k s.cache

/-- The state-relevant public operations (navigation and `key()` are pure
reads of the structure and do not appear as state transformers). -/
inductive Op where
  | ins (path : List ChildType) (k : Nat)
  | del (path : List ChildType)
  | swp (k1 k2 : Nat)
  | get (k : Nat)
  deriving DecidableEq

/-- Run one operation; `none` means the operation panicked (aborted).
`get` never aborts and never modifies the state. -/
def applyOp (s : RBState) : Op → Option RBState
  | .ins path k => (insertOp s path k).map (·.1)
  | .del path => deleteOp s path
  | .swp k1 k2 => swapOp s k1 k2
  | .get _ => some s

/-- Run a sequence of operations from a state; aborts abort the run. -/
def runOps (s : RBState) : List Op → Option RBState
  | [] => some s
  | op :: ops => (applyOp s op).bind (fun s' => runOps s' ops)

/-- An operation is an insert or a delete. -/
def Op.insOrDel : Op → Bool
  | .ins _ _ => true
  | .del _ => true
  | .swp _ _ => false
  | .get _ => false

/-- An operation is a delete. -/
def Op.isDel : Op → Bool
  | .del _ => true
  | _ => false

/-- An operation does not insert a key that the index already holds:
true for every non-insert operation, and for an insert exactly when the
inserted key has no cache entry in the starting state. -/
def Op.freshKey : Op → RBState → Bool
  | .ins _ k, s => (cacheLookup k s.cache).isNone
  | _, _ => true

/-! ## Invariants -/

namespace RBTree

/-- Combined red-black validity check: returns the black height of the
subtree when every red node has black-rooted children and all root-to-leaf
paths of the subtree pass through the same number of black nodes. -/
def validB : RBTree → Option Nat
  | .nil => some 0
  | .node _ _ c _ l r =>
    match validB l, validB r with
    | some hl, some hr =>
      if hl = hr then
        match c with
        | .black => some (hl + 1)
        | .red =>
          if rootColor l = Color.black ∧ rootColor r = Color.black then some hl
          else none
      else none
    | _, _ => none

/-- The root of the subtree (if present) is black. -/
def rootBlack (t : RBTree) : Prop := rootColor t = Color.black

instance (t : RBTree) : Decidable (rootBlack t) := by
  unfold rootBlack; infer_instance

/-- No red node has a red child. -/
def noRR : RBTree → Prop
  | .nil => True
  | .node _ _ c _ l r =>
    (c = Color.red → rootColor l = Color.black ∧ rootColor r = Color.black) ∧
      noRR l ∧ noRR r

/-- Decision procedure for `noRR`. -/
def noRR.dec : (t : RBTree) → Decidable (noRR t)
  | .nil => .isTrue trivial
  | .node a k c p l r =>
    haveI : Decidable (noRR l) := noRR.dec l
    haveI : Decidable (noRR r) := noRR.dec r
    decidable_of_iff
      ((c = Color.red → rootColor l = Color.black ∧ rootColor r = Color.black) ∧
        noRR l ∧ noRR r) (by rw [noRR])

instance (t : RBTree) : Decidable (noRR t) := noRR.dec t

/-- Every node's recorded position field matches the slot it actually
occupies; `q` is the slot the subtree hangs at. -/
def posOk : RBTree → TreePosition → Prop
  | .nil, _ => True
  | .node a _ _ p l r, q =>
    p = q ∧ posOk l (.child a .left) ∧ posOk r (.child a .right)

/-- Decision procedure for `posOk`. -/
def posOk.dec : (t : RBTree) → (q : TreePosition) → Decidable (posOk t q)
  | .nil, _ => .isTrue trivial
  | .node a k c p l r, q =>
    haveI : Decidable (posOk l (.child a .left)) := posOk.dec l _
    haveI : Decidable (posOk r (.child a .right)) := posOk.dec r _
    decidable_of_iff
      (p = q ∧ posOk l (.child a .left) ∧ posOk r (.child a .right)) (by rw [posOk])

instance (t : RBTree) (q : TreePosition) : Decidable (posOk t q) := posOk.dec t q

/-- The key identities of all nodes of the subtree. -/
def treeKeys (t : RBTree) : List Nat := (treeAssoc t).map Prod.fst

/-- The allocation addresses of all nodes of the subtree. -/
def treeAddrs (t : RBTree) : List Nat := (treeAssoc t).map Prod.snd

/-- All node addresses are below the allocation counter. -/
def addrBound (t : RBTree) (n : Nat) : Prop := ∀ a ∈ treeAddrs t, a < n

instance (t : RBTree) (n : Nat) : Decidable (addrBound t n) := by
  unfold addrBound; infer_instance

end RBTree

/-- The full data-structure invariant of a tree state:
red-black color validity, black root, position consistency, the cache is
(up to reordering) exactly the key/address association of the reachable
nodes, key identities and node addresses are unambiguous, and all node
addresses were allocated below the allocation counter. -/
def Inv (s : RBState) : Prop :=
  (RBTree.validB s.root).isSome ∧
    s.root.rootBlack ∧
    RBTree.posOk s.root .root ∧
    s.cache.Perm (RBTree.treeAssoc s.root) ∧
    (RBTree.treeKeys s.root).Nodup ∧
    (RBTree.treeAddrs s.root).Nodup ∧
    RBTree.addrBound s.root s.nextAddr

instance (s : RBState) : Decidable (Inv s) := by
  unfold Inv; infer_instance

/-! ## Zipper invariants used by the repair proofs -/

/-- Black-height bookkeeping: a black parent adds one to the height seen
from above. -/
def step (c : Color) (n : Nat) : Nat :=
  match c with
  | .black => n + 1
  | .red => n

/-- Color/height validity of a context around a hole whose content has black
height `n` and root color `cc`: each frame's sibling subtree is valid with
the matching height, and a red frame node has a black-rooted child on both
sides. -/
def ctxFit : List Frame → Color → Nat → Prop
  | [], _, _ => True
  | f :: rest, cc, n =>
    RBTree.validB f.sib = some n ∧
      (f.color = Color.red → cc = Color.black ∧ f.sib.rootColor = Color.black) ∧
      ctxFit rest f.color (step f.color n)

/-- Like `ctxFit`, but the red-red constraint between the hole content and
the innermost frame is waived (the state right after inserting a red node
under a possibly red parent). -/
def ctxFitW : List Frame → Nat → Prop
  | [], _ => True
  | f :: rest, n =>
    RBTree.validB f.sib = some n ∧
      (f.color = Color.red → f.sib.rootColor = Color.black) ∧
      ctxFit rest f.color (step f.color n)

/-- Position consistency of a context: each frame's recorded position is the
slot the frame's node occupies, and its sibling subtree is position
consistent in its slot. -/
def ctxPosOk : List Frame → Prop
  | [] => True
  | f :: rest =>
    f.pos = posOfCtx rest ∧ RBTree.posOk f.sib (.child f.addr f.ct.flip) ∧ ctxPosOk rest

/-- The outermost frame of the context (the root node of the tree the zipper
was opened in), when the context is nonempty, is black. -/
def lastBlack (ctx : List Frame) : Prop :=
  ∀ f ∈ ctx.getLast?, f.color = Color.black

/-- The in-order association entries contributed by a context strictly to the
left of its hole. -/
def ctxA : List Frame → List (Nat × Nat)
  | [] => []
  | ⟨.left, _, _, _, _, _⟩ :: rest => ctxA rest
  | ⟨.right, a, k, _, _, sib⟩ :: rest => ctxA rest ++ RBTree.treeAssoc sib ++ [(k, a)]

/-- The in-order association entries contributed by a context strictly to the
right of its hole. -/
def ctxB : List Frame → List (Nat × Nat)
  | [] => []
  | ⟨.left, a, k, _, _, sib⟩ :: rest => ((k, a) :: RBTree.treeAssoc sib) ++ ctxB rest
  | ⟨.right, _, _, _, _, _⟩ :: rest => ctxB rest

/-- Red-red cleanliness of a context around a hole whose content has root
color `cc`. -/
def ctxRR : List Frame → Color → Prop
  | [], _ => True
  | f :: rest, cc =>
    (f.color = Color.red → cc = Color.black ∧ f.sib.rootColor = Color.black) ∧
      RBTree.noRR f.sib ∧ ctxRR rest f.color

/-! ## Basic lemmas about the primitive node operations -/

namespace RBTree

@[simp] theorem treeAssoc_nil : treeAssoc .nil = [] := rfl

@[simp] theorem treeAssoc_node (a k : Nat) (c : Color) (p : TreePosition) (l r : RBTree) :
    treeAssoc (.node a k c p l r) = treeAssoc l ++ (k, a) :: treeAssoc r := rfl

@[simp] theorem rootColor_nil : rootColor .nil = Color.black := rfl

@[simp] theorem rootColor_node (a k : Nat) (c : Color) (p : TreePosition) (l r : RBTree) :
    rootColor (.node a k c p l r) = c := rfl

@[simp] theorem paintRoot_nil (c : Color) : paintRoot c .nil = .nil := rfl

@[simp] theorem paintRoot_node (c : Color) (a k : Nat) (c0 : Color) (p : TreePosition)
    (l r : RBTree) : paintRoot c (.node a k c0 p l r) = .node a k c p l r := rfl

@[simp] theorem setRootPos_nil (p : TreePosition) : setRootPos .nil p = .nil := rfl

@[simp] theorem setRootPos_node (a k : Nat) (c : Color) (p q : TreePosition) (l r : RBTree) :
    setRootPos (.node a k c p l r) q = .node a k c q l r := rfl

@[simp] theorem treeAssoc_paintRoot (c : Color) (t : RBTree) :
    treeAssoc (paintRoot c t) = treeAssoc t := by
  cases t <;> rfl

@[simp] theorem treeAssoc_paintChild (d : ChildType) (c : Color) (t : RBTree) :
    treeAssoc (paintChild d c t) = treeAssoc t := by
  cases t with
  | nil => rfl
  | node a k c0 p l r => cases d <;> simp [paintChild]

@[simp] theorem treeAssoc_setRootPos (t : RBTree) (p : TreePosition) :
    treeAssoc (setRootPos t p) = treeAssoc t := by
  cases t <;> rfl

@[simp] theorem rootColor_setRootPos (t : RBTree) (p : TreePosition) :
    rootColor (setRootPos t p) = rootColor t := by
  cases t <;> rfl

@[simp] theorem validB_nil : validB .nil = some 0 := rfl

@[simp] theorem posOk_nil (q : TreePosition) : posOk .nil q := trivial

@[simp] theorem posOk_node (a k : Nat) (c : Color) (p : TreePosition) (l r : RBTree)
    (q : TreePosition) :
    posOk (.node a k c p l r) q ↔
      p = q ∧ posOk l (.child a .left) ∧ posOk r (.child a .right) := Iff.rfl

@[simp] theorem noRR_nil : noRR .nil := trivial

@[simp] theorem noRR_node (a k : Nat) (c : Color) (p : TreePosition) (l r : RBTree) :
    noRR (.node a k c p l r) ↔
      (c = Color.red → rootColor l = Color.black ∧ rootColor r = Color.black) ∧
        noRR l ∧ noRR r := Iff.rfl

@[simp] theorem validB_setRootPos (t : RBTree) (p : TreePosition) :
    validB (setRootPos t p) = validB t := by
  cases t <;> rfl

theorem posOk_paintRoot (c : Color) (t : RBTree) (q : TreePosition) (h : posOk t q) :
    posOk (paintRoot c t) q := by
  cases t with
  | nil => trivial
  | node a k c0 p l r => exact h

theorem posOk_paintChild (d : ChildType) (c : Color) (t : RBTree) (q : TreePosition)
    (h : posOk t q) : posOk (paintChild d c t) q := by
  cases t with
  | nil => trivial
  | node a k c0 p l r =>
    obtain ⟨h1, h2, h3⟩ := h
    cases d with
    | left => exact ⟨h1, posOk_paintRoot _ _ _ h2, h3⟩
    | right => exact ⟨h1, h2, posOk_paintRoot _ _ _ h3⟩

theorem posOk_setRootPos (t : RBTree) (q q' : TreePosition) (h : posOk t q) :
    posOk (setRootPos t q') q' := by
  cases t <;> simp_all

/-- `validB` of a black node from its children. -/
theorem validB_node_black {l r : RBTree} {n : Nat} (a k : Nat) (p : TreePosition)
    (hl : validB l = some n) (hr : validB r = some n) :
    validB (.node a k .black p l r) = some (n + 1) := by
  simp [validB, hl, hr]

/-- `validB` of a red node from its children. -/
theorem validB_node_red {l r : RBTree} {n : Nat} (a k : Nat) (p : TreePosition)
    (hl : validB l = some n) (hr : validB r = some n)
    (hcl : rootColor l = Color.black) (hcr : rootColor r = Color.black) :
    validB (.node a k .red p l r) = some n := by
  simp [validB, hl, hr, hcl, hcr]

/-- Inversion of `validB` at a node. -/
theorem validB_node_inv {a k : Nat} {c : Color} {p : TreePosition} {l r : RBTree} {m : Nat}
    (h : validB (.node a k c p l r) = some m) :
    ∃ n, validB l = some n ∧ validB r = some n ∧ m = step c n ∧
      (c = Color.red → rootColor l = Color.black ∧ rootColor r = Color.black) := by
  rw [validB] at h
  rcases hl : validB l with _ | nl <;> rw [hl] at h
  · cases h
  rcases hr : validB r with _ | nr <;> rw [hr] at h
  · cases h
  simp only at h
  by_cases hn : nl = nr
  · subst hn
    refine ⟨nl, rfl, rfl, ?_⟩
    cases c with
    | black => simp_all [step]
    | red =>
      simp only [if_pos rfl] at h
      by_cases hc : rootColor l = Color.black ∧ rootColor r = Color.black
      · simp_all [step]
      · simp [hc] at h
  · simp [hn] at h

/-- Painting a valid red-rooted subtree black raises its black height. -/
theorem validB_paintRoot_black {t : RBTree} {n : Nat}
    (hc : rootColor t = Color.red) (h : validB t = some n) :
    validB (paintRoot .black t) = some (n + 1) := by
  cases t with
  | nil => simp at hc
  | node a k c p l r =>
    obtain ⟨m, hl, hr, hm, _⟩ := validB_node_inv h
    simp only [rootColor_node] at hc
    subst hc
    simp only [step] at hm
    subst hm
    simpa using validB_node_black a k p hl hr

/-- Every color-valid subtree has no red-red edge. -/
theorem validB_noRR {t : RBTree} (h : (validB t).isSome) : noRR t := by
  induction t with
  | nil => trivial
  | node a k c p l r ihl ihr =>
    rcases Option.isSome_iff_exists.1 h with ⟨m, hm⟩
    obtain ⟨n, hl, hr, _, hred⟩ := validB_node_inv hm
    exact ⟨hred, ihl (by simp [hl]), ihr (by simp [hr])⟩

theorem noRR_paintRoot_black {t : RBTree} (h : noRR t) : noRR (paintRoot .black t) := by
  cases t with
  | nil => trivial
  | node a k c p l r => exact ⟨by simp, h.2.1, h.2.2⟩

@[simp] theorem setKeyAt_nil (q k' : Nat) : setKeyAt .nil q k' = .nil := rfl

theorem treeAssoc_setKeyAt (t : RBTree) (q k' : Nat) :
    treeAssoc (setKeyAt t q k') =
      (treeAssoc t).map (fun e => if e.2 = q then (k', e.2) else e) := by
  induction t with
  | nil => rfl
  | node a k c p l r ihl ihr =>
    simp only [setKeyAt, treeAssoc_node, ihl, ihr, List.map_append, List.map_cons]
    by_cases h : a = q <;> simp [h]

@[simp] theorem rootColor_setKeyAt (t : RBTree) (q k' : Nat) :
    rootColor (setKeyAt t q k') = rootColor t := by
  cases t <;> rfl

@[simp] theorem validB_setKeyAt (t : RBTree) (q k' : Nat) :
    validB (setKeyAt t q k') = validB t := by
  induction t with
  | nil => rfl
  | node a k c p l r ihl ihr => simp [setKeyAt, validB, ihl, ihr]

theorem posOk_setKeyAt (t : RBTree) (q k' : Nat) (q' : TreePosition) (h : posOk t q') :
    posOk (setKeyAt t q k') q' := by
  induction t generalizing q' with
  | nil => trivial
  | node a k c p l r ihl ihr =>
    exact ⟨h.1, ihl _ h.2.1, ihr _ h.2.2⟩

@[simp] theorem eraseKeys_setKeyAt (t : RBTree) (q k' : Nat) :
    eraseKeys (setKeyAt t q k') = eraseKeys t := by
  induction t with
  | nil => rfl
  | node a k c p l r ihl ihr => simp [setKeyAt, eraseKeys, ihl, ihr]

/-- No node of the subtree has address `a`: `keyAt` finds nothing. -/
theorem keyAt_eq_none {t : RBTree} {a : Nat} (h : a ∉ treeAddrs t) :
    keyAt t a = none := by
  induction t with
  | nil => rfl
  | node a0 k c p l r ihl ihr =>
    simp only [treeAddrs, treeAssoc_node, List.map_append, List.map_cons,
      List.mem_append, List.mem_cons, not_or] at h
    rw [keyAt]
    rw [if_neg (by exact fun hc => h.2.1 hc.symm)]
    rw [ihl (by exact fun hc => h.1 (by simpa [treeAddrs] using hc)),
      ihr (by exact fun hc => h.2.2 (by simpa [treeAddrs] using hc))]

/-- With unambiguous addresses, `keyAt` returns the key of the association
entry for that address. -/
theorem keyAt_of_mem {t : RBTree} {k a : Nat} (h : (k, a) ∈ treeAssoc t)
    (hnd : (treeAddrs t).Nodup) : keyAt t a = some k := by
  induction t with
  | nil => simp at h
  | node a0 k0 c p l r ihl ihr =>
    simp only [treeAddrs, treeAssoc_node, List.map_append, List.map_cons] at hnd
    rw [List.nodup_middle, List.nodup_cons] at hnd
    rcases hnd with ⟨hna, hnd'⟩
    rw [List.nodup_append] at hnd'
    simp only [treeAssoc_node, List.mem_append, List.mem_cons] at h
    rw [keyAt]
    rcases h with hll | heq | hrr
    · have haa : a ≠ a0 := by
        intro hc
        subst hc
        exact hna (List.mem_append_left _ (List.mem_map_of_mem Prod.snd hll))
      rw [if_neg (fun hc => haa hc.symm)]
      rw [ihl hll (by simpa [treeAddrs] using hnd'.1)]
    · cases heq
      simp
    · have haa : a ≠ a0 := by
        intro hc
        subst hc
        exact hna (List.mem_append_right _ (List.mem_map_of_mem Prod.snd hrr))
      rw [if_neg (fun hc => haa hc.symm)]
      have hnl : a ∉ treeAddrs l := by
        intro hc
        exact hnd'.2.2 (by simpa [treeAddrs] using hc)
          (List.mem_map_of_mem Prod.snd hrr)
      rw [keyAt_eq_none hnl]
      exact ihr hrr (by simpa [treeAddrs] using hnd'.2.1)

end RBTree

/-! ## Lemmas about zipper assembly and plugging -/

open RBTree

theorem rootColor_assemble (f : Frame) (t : RBTree) :
    rootColor (assemble f t) = f.color := by
  obtain ⟨ct, a, k, c, p, sib⟩ := f
  cases ct <;> rfl

theorem assemble_ne_nil (f : Frame) (t : RBTree) : assemble f t ≠ RBTree.nil := by
  obtain ⟨ct, a, k, c, p, sib⟩ := f
  cases ct <;> exact fun h => RBTree.noConfusion h

theorem treeAssoc_assemble (f : Frame) (t : RBTree) :
    treeAssoc (assemble f t) =
      match f.ct with
      | .left => treeAssoc t ++ (f.key, f.addr) :: treeAssoc f.sib
      | .right => treeAssoc f.sib ++ (f.key, f.addr) :: treeAssoc t := by
  obtain ⟨ct, a, k, c, p, sib⟩ := f
  cases ct <;> rfl

theorem treeAssoc_plug (t : RBTree) (ctx : List Frame) :
    treeAssoc (plug t ctx) = ctxA ctx ++ treeAssoc t ++ ctxB ctx := by
  induction ctx generalizing t with
  | nil => simp [plug, ctxA, ctxB]
  | cons f rest ih =>
    obtain ⟨ct, a, k, c, p, sib⟩ := f
    cases ct with
    | left =>
      rw [plug, ih]
      simp [ctxA, ctxB, assemble]
    | right =>
      rw [plug, ih]
      simp [ctxA, ctxB, assemble]

/-- The root color of a plugged zipper is the outermost frame's color, or
the hole content's root color if there are no frames. -/
theorem rootColor_plug (t : RBTree) (ctx : List Frame) :
    rootColor (plug t ctx) = ((ctx.getLast?).map Frame.color).getD (rootColor t) := by
  induction ctx generalizing t with
  | nil => simp [plug]
  | cons f rest ih =>
    rw [plug, ih]
    cases rest with
    | nil => simp [rootColor_assemble]
    | cons g rest' =>
      rcases hgl : (g :: rest').getLast? with _ | fr
      · simp at hgl
      · simp [hgl]

theorem assemble_posOk (f : Frame) (t : RBTree) (q : TreePosition)
    (h1 : f.pos = q) (h2 : posOk t (.child f.addr f.ct))
    (h3 : posOk f.sib (.child f.addr f.ct.flip)) :
    posOk (assemble f t) q := by
  obtain ⟨ct, a, k, c, p, sib⟩ := f
  cases ct with
  | left => exact ⟨h1, h2, h3⟩
  | right => exact ⟨h1, h3, h2⟩

theorem plug_posOk (ctx : List Frame) (t : RBTree) (hctx : ctxPosOk ctx)
    (ht : posOk t (posOfCtx ctx)) : posOk (plug t ctx) .root := by
  induction ctx generalizing t with
  | nil => exact ht
  | cons f rest ih =>
    obtain ⟨h1, h2, h3⟩ := hctx
    exact ih (assemble f t) h3 (assemble_posOk f t _ h1 ht h2)

theorem noRR_assemble (f : Frame) (t : RBTree) :
    noRR (assemble f t) ↔
      (f.color = Color.red → rootColor t = Color.black ∧ f.sib.rootColor = Color.black) ∧
        noRR f.sib ∧ noRR t := by
  obtain ⟨ct, a, k, c, p, sib⟩ := f
  cases ct with
  | left =>
    simp only [assemble, noRR_node]
    constructor
    · rintro ⟨x, y, z⟩; exact ⟨x, z, y⟩
    · rintro ⟨x, y, z⟩; exact ⟨x, z, y⟩
  | right =>
    simp only [assemble, noRR_node]
    constructor
    · rintro ⟨x, y, z⟩
      exact ⟨fun hr => ⟨(x hr).2, (x hr).1⟩, y, z⟩
    · rintro ⟨x, y, z⟩
      exact ⟨fun hr => ⟨(x hr).2, (x hr).1⟩, y, z⟩

theorem plug_noRR (ctx : List Frame) (t : RBTree) :
    noRR (plug t ctx) ↔ ctxRR ctx (rootColor t) ∧ noRR t := by
  induction ctx generalizing t with
  | nil => simp [plug, ctxRR]
  | cons f rest ih =>
    rw [plug, ih, noRR_assemble, rootColor_assemble, ctxRR]
    constructor
    · rintro ⟨x, ⟨y, z, w⟩⟩
      exact ⟨⟨y, z, x⟩, w⟩
    · rintro ⟨⟨y, z, x⟩, w⟩
      exact ⟨x, y, z, w⟩

theorem ctxRR_mono_black (ctx : List Frame) (cc : Color) (h : ctxRR ctx cc) :
    ctxRR ctx .black := by
  cases ctx with
  | nil => trivial
  | cons f rest =>
    exact ⟨fun hr => ⟨rfl, ((h.1) hr).2⟩, h.2.1, h.2.2⟩

theorem validB_assemble {t : RBTree} {n : Nat} (f : Frame)
    (ht : validB t = some n) (hs : validB f.sib = some n)
    (hr : f.color = Color.red → rootColor t = Color.black ∧ f.sib.rootColor = Color.black) :
    validB (assemble f t) = some (step f.color n) := by
  obtain ⟨ct, a, k, c, p, sib⟩ := f
  simp only at ht hs hr ⊢
  cases ct with
  | left =>
    cases c with
    | black => exact validB_node_black a k p ht hs
    | red => exact validB_node_red a k p ht hs (hr rfl).1 (hr rfl).2
  | right =>
    cases c with
    | black => exact validB_node_black a k p hs ht
    | red => exact validB_node_red a k p hs ht (hr rfl).2 (hr rfl).1

theorem plug_validB (ctx : List Frame) (cc : Color) (n : Nat) (t : RBTree)
    (hfit : ctxFit ctx cc n) (ht : validB t = some n)
    (hc : rootColor t = Color.black ∨ rootColor t = cc) :
    ∃ m, validB (plug t ctx) = some m := by
  induction ctx generalizing cc n t with
  | nil => exact ⟨n, ht⟩
  | cons f rest ih =>
    obtain ⟨h1, h2, h3⟩ := hfit
    refine ih f.color (step f.color n) (assemble f t) h3 ?_ (Or.inr (rootColor_assemble f t))
    refine validB_assemble f ht h1 (fun hr => ⟨?_, (h2 hr).2⟩)
    rcases hc with hb | hcc
    · exact hb
    · rw [hcc]; exact (h2 hr).1

theorem plug_validB_inv (ctx : List Frame) (t : RBTree) (N : Nat)
    (h : validB (plug t ctx) = some N) :
    ∃ n, validB t = some n ∧ ctxFit ctx (rootColor t) n := by
  induction ctx generalizing t N with
  | nil => exact ⟨N, h, trivial⟩
  | cons f rest ih =>
    rw [plug] at h
    obtain ⟨n', hv, hfit⟩ := ih (assemble f t) N h
    rw [rootColor_assemble] at hfit
    obtain ⟨ct, a, k, c, p, sib⟩ := f
    cases ct with
    | left =>
      obtain ⟨n, hl, hr, hn, hred⟩ := validB_node_inv hv
      exact ⟨n, hl, hr, fun hc => hred hc, hn ▸ hfit⟩
    | right =>
      obtain ⟨n, hl, hr, hn, hred⟩ := validB_node_inv hv
      exact ⟨n, hr, hl, fun hc => ⟨(hred hc).2, (hred hc).1⟩, hn ▸ hfit⟩

theorem ctxFit_to_W (ctx : List Frame) (cc : Color) (n : Nat) (h : ctxFit ctx cc n) :
    ctxFitW ctx n := by
  cases ctx with
  | nil => trivial
  | cons f rest => exact ⟨h.1, fun hr => ((h.2.1) hr).2, h.2.2⟩

theorem lastBlack_nil : lastBlack [] := by
  intro f hf
  simp at hf

theorem lastBlack_drop2 (f g : Frame) (rest2 : List Frame)
    (h : lastBlack (f :: g :: rest2)) : lastBlack rest2 := by
  cases rest2 with
  | nil => exact lastBlack_nil
  | cons x xs =>
    intro fr hfr
    exact h fr (by rwa [List.getLast?_cons_cons, List.getLast?_cons_cons])

/-! ## Lemmas about caller-driven descent -/

theorem descend_plug : ∀ (path : List ChildType) (t : RBTree) (acc ctx : List Frame)
    (u : RBTree), descend t path acc = some (ctx, u) → plug u ctx = plug t acc
  | [], t, acc, ctx, u, h => by
    rw [descend] at h
    cases h
    rfl
  | d :: path, .nil, acc, ctx, u, h => by
    rw [descend] at h
    cases h
  | .left :: path, .node a k c p l r, acc, ctx, u, h => by
    rw [descend] at h
    rw [descend_plug path l (⟨.left, a, k, c, p, r⟩ :: acc) ctx u h]
    rfl
  | .right :: path, .node a k c p l r, acc, ctx, u, h => by
    rw [descend] at h
    rw [descend_plug path r (⟨.right, a, k, c, p, l⟩ :: acc) ctx u h]
    rfl

theorem descend_getLast : ∀ (path : List ChildType) (t : RBTree) (acc ctx : List Frame)
    (u : RBTree), descend t path acc = some (ctx, u) →
    ctx.getLast? = acc.getLast? ∨
      (acc = [] ∧ ∃ f, ctx.getLast? = some f ∧ f.color = rootColor t)
  | [], t, acc, ctx, u, h => by
    rw [descend] at h
    cases h
    exact Or.inl rfl
  | d :: path, .nil, acc, ctx, u, h => by
    rw [descend] at h
    cases h
  | .left :: path, .node a k c p l r, acc, ctx, u, h => by
    rw [descend] at h
    rcases descend_getLast path l (⟨.left, a, k, c, p, r⟩ :: acc) ctx u h with heq | ⟨hc, _⟩
    · rw [heq]
      cases acc with
      | nil => exact Or.inr ⟨rfl, ⟨.left, a, k, c, p, r⟩, rfl, rfl⟩
      | cons x xs => exact Or.inl List.getLast?_cons_cons
    · cases hc
  | .right :: path, .node a k c p l r, acc, ctx, u, h => by
    rw [descend] at h
    rcases descend_getLast path r (⟨.right, a, k, c, p, l⟩ :: acc) ctx u h with heq | ⟨hc, _⟩
    · rw [heq]
      cases acc with
      | nil => exact Or.inr ⟨rfl, ⟨.right, a, k, c, p, l⟩, rfl, rfl⟩
      | cons x xs => exact Or.inl List.getLast?_cons_cons
    · cases hc

theorem descend_lastBlack {t : RBTree} {path : List ChildType} {ctx : List Frame}
    {u : RBTree} (hb : rootColor t = Color.black)
    (h : descend t path [] = some (ctx, u)) : lastBlack ctx := by
  rcases descend_getLast path t [] ctx u h with heq | ⟨_, f, hf, hfc⟩
  · intro fr hfr
    rw [heq] at hfr
    simp at hfr
  · intro fr hfr
    rw [hf] at hfr
    cases hfr
    rw [hfc, hb]

theorem descend_posOk : ∀ (path : List ChildType) (t : RBTree) (acc ctx : List Frame)
    (u : RBTree), ctxPosOk acc → posOk t (posOfCtx acc) →
    descend t path acc = some (ctx, u) → ctxPosOk ctx ∧ posOk u (posOfCtx ctx)
  | [], t, acc, ctx, u, hacc, ht, h => by
    rw [descend] at h
    cases h
    exact ⟨hacc, ht⟩
  | d :: path, .nil, acc, ctx, u, hacc, ht, h => by
    rw [descend] at h
    cases h
  | .left :: path, .node a k c p l r, acc, ctx, u, hacc, ht, h => by
    rw [descend] at h
    exact descend_posOk path l (⟨.left, a, k, c, p, r⟩ :: acc) ctx u
      ⟨ht.1, ht.2.2, hacc⟩ ht.2.1 h
  | .right :: path, .node a k c p l r, acc, ctx, u, hacc, ht, h => by
    rw [descend] at h
    exact descend_posOk path r (⟨.right, a, k, c, p, l⟩ :: acc) ctx u
      ⟨ht.1, ht.2.1, hacc⟩ ht.2.2 h

/-! ## Lemmas about rotation -/

theorem treeAssoc_rotate {t t' : RBTree} {d : ChildType}
    (h : RBTree.rotate t d = some t') : treeAssoc t' = treeAssoc t := by
  cases t with
  | nil => cases h
  | node a k c p l r =>
    cases d with
    | left =>
      cases r with
      | nil => cases h
      | node ra rk rc rp rl rr =>
        rw [RBTree.rotate] at h
        cases h
        simp
    | right =>
      cases l with
      | nil => cases h
      | node la lk lc lp ll lr =>
        rw [RBTree.rotate] at h
        cases h
        simp

theorem posOk_rotate {t t' : RBTree} {d : ChildType} {q : TreePosition}
    (hp : posOk t q) (h : RBTree.rotate t d = some t') : posOk t' q := by
  cases t with
  | nil => cases h
  | node a k c p l r =>
    cases d with
    | left =>
      cases r with
      | nil => cases h
      | node ra rk rc rp rl rr =>
        rw [RBTree.rotate] at h
        cases h
        obtain ⟨h1, h2, h3⟩ := hp
        obtain ⟨h4, h5, h6⟩ := h3
        exact ⟨h1, ⟨rfl, h2, posOk_setRootPos _ _ _ h5⟩, h6⟩
    | right =>
      cases l with
      | nil => cases h
      | node la lk lc lp ll lr =>
        rw [RBTree.rotate] at h
        cases h
        obtain ⟨h1, h2, h3⟩ := hp
        obtain ⟨h4, h5, h6⟩ := h2
        exact ⟨h1, h5, ⟨rfl, posOk_setRootPos _ _ _ h6, h3⟩⟩

/-! ## Equations of the repair procedure -/

theorem repairZ_nil (focus : RBTree) :
    repairZ focus [] = some (focus.paintRoot .black) := rfl

theorem repairZ_black (focus : RBTree) (f : Frame) (rest : List Frame)
    (hf : f.color = Color.black) :
    repairZ focus (f :: rest) = some (plug focus (f :: rest)) := by
  obtain ⟨ct, a, k, fc, p, sib⟩ := f
  have hf2 : fc = _ := hf
  subst hf2
  simp [repairZ]

theorem repairZ_red_root (focus : RBTree) (f : Frame) (hf : f.color = Color.red) :
    repairZ focus [f] = none := by
  obtain ⟨ct, a, k, fc, p, sib⟩ := f
  have hf2 : fc = _ := hf
  subst hf2
  simp [repairZ]

theorem repairZ_case3 (focus : RBTree) (f g : Frame) (rest2 : List Frame)
    (hf : f.color = Color.red) (hu : g.sib.rootColor = Color.red) :
    repairZ focus (f :: g :: rest2) = repairZ (case3Focus f g focus) rest2 := by
  obtain ⟨ct, a, k, fc, p, sib⟩ := f
  have hf2 : fc = _ := hf
  subst hf2
  simp [repairZ, hu]

theorem repairZ_case4 (focus : RBTree) (f g : Frame) (rest2 : List Frame)
    (hf : f.color = Color.red) (hu : ¬ g.sib.rootColor = Color.red) :
    repairZ focus (f :: g :: rest2) = repairCase4 focus f g rest2 := by
  obtain ⟨ct, a, k, fc, p, sib⟩ := f
  have hf2 : fc = _ := hf
  subst hf2
  simp [repairZ, hu]

theorem repairCase4_LL (focus : RBTree) (f g : Frame) (rest2 : List Frame)
    (hf : f.ct = ChildType.left) (hg : g.ct = ChildType.left) :
    repairCase4 focus f g rest2 =
      some (plug (.node f.addr f.key .black g.pos focus
        (.node g.addr g.key .red (.child f.addr .right)
          (setRootPos f.sib (.child g.addr .left)) g.sib)) rest2) := by
  obtain ⟨fct, fa, fk, fc, fp, fsib⟩ := f
  obtain ⟨gct, ga, gk, gc, gp, gsib⟩ := g
  have hf2 : fct = _ := hf
  have hg2 : gct = _ := hg
  subst hf2
  subst hg2
  simp [repairCase4, case4Pre, assemble, RBTree.rotate, RBTree.paintChild]

theorem repairCase4_RR (focus : RBTree) (f g : Frame) (rest2 : List Frame)
    (hf : f.ct = ChildType.right) (hg : g.ct = ChildType.right) :
    repairCase4 focus f g rest2 =
      some (plug (.node f.addr f.key .black g.pos
        (.node g.addr g.key .red (.child f.addr .left) g.sib
          (setRootPos f.sib (.child g.addr .right))) focus) rest2) := by
  obtain ⟨fct, fa, fk, fc, fp, fsib⟩ := f
  obtain ⟨gct, ga, gk, gc, gp, gsib⟩ := g
  have hf2 : fct = _ := hf
  have hg2 : gct = _ := hg
  subst hf2
  subst hg2
  simp [repairCase4, case4Pre, assemble, RBTree.rotate, RBTree.paintChild]

theorem repairCase4_RL (sa sk : Nat) (sc : Color) (sp : TreePosition) (sl sr : RBTree)
    (f g : Frame) (rest2 : List Frame)
    (hf : f.ct = ChildType.right) (hg : g.ct = ChildType.left) :
    repairCase4 (.node sa sk sc sp sl sr) f g rest2 =
      some (plug (.node sa sk .black g.pos
        (.node f.addr f.key f.color (.child sa .left) f.sib
          (setRootPos sl (.child f.addr .right)))
        (.node g.addr g.key .red (.child sa .right)
          (setRootPos sr (.child g.addr .left)) g.sib)) rest2) := by
  obtain ⟨fct, fa, fk, fc, fp, fsib⟩ := f
  obtain ⟨gct, ga, gk, gc, gp, gsib⟩ := g
  have hf2 : fct = _ := hf
  have hg2 : gct = _ := hg
  subst hf2
  subst hg2
  simp [repairCase4, case4Pre, assemble, RBTree.rotate, RBTree.paintChild]

theorem repairCase4_LR (sa sk : Nat) (sc : Color) (sp : TreePosition) (sl sr : RBTree)
    (f g : Frame) (rest2 : List Frame)
    (hf : f.ct = ChildType.left) (hg : g.ct = ChildType.right) :
    repairCase4 (.node sa sk sc sp sl sr) f g rest2 =
      some (plug (.node sa sk .black g.pos
        (.node g.addr g.key .red (.child sa .left) g.sib
          (setRootPos sl (.child g.addr .right)))
        (.node f.addr f.key f.color (.child sa .right)
          (setRootPos sr (.child f.addr .left)) f.sib)) rest2) := by
  obtain ⟨fct, fa, fk, fc, fp, fsib⟩ := f
  obtain ⟨gct, ga, gk, gc, gp, gsib⟩ := g
  have hf2 : fct = _ := hf
  have hg2 : gct = _ := hg
  subst hf2
  subst hg2
  simp [repairCase4, case4Pre, assemble, RBTree.rotate, RBTree.paintChild]

theorem repairCase4_RL_nil (f g : Frame) (rest2 : List Frame)
    (hf : f.ct = ChildType.right) (hg : g.ct = ChildType.left) :
    repairCase4 .nil f g rest2 = none := by
  obtain ⟨fct, fa, fk, fc, fp, fsib⟩ := f
  obtain ⟨gct, ga, gk, gc, gp, gsib⟩ := g
  have hf2 : fct = _ := hf
  have hg2 : gct = _ := hg
  subst hf2
  subst hg2
  simp [repairCase4, case4Pre, assemble, RBTree.rotate]

theorem repairCase4_LR_nil (f g : Frame) (rest2 : List Frame)
    (hf : f.ct = ChildType.left) (hg : g.ct = ChildType.right) :
    repairCase4 .nil f g rest2 = none := by
  obtain ⟨fct, fa, fk, fc, fp, fsib⟩ := f
  obtain ⟨gct, ga, gk, gc, gp, gsib⟩ := g
  have hf2 : fct = _ := hf
  have hg2 : gct = _ := hg
  subst hf2
  subst hg2
  simp [repairCase4, case4Pre, assemble, RBTree.rotate]

/-! ## Repair preserves the in-order association -/

theorem treeAssoc_assemble_congr (f1 f2 : Frame) (t1 t2 : RBTree)
    (hct : f1.ct = f2.ct) (ha : f1.addr = f2.addr) (hk : f1.key = f2.key)
    (hsib : treeAssoc f1.sib = treeAssoc f2.sib) (ht : treeAssoc t1 = treeAssoc t2) :
    treeAssoc (assemble f1 t1) = treeAssoc (assemble f2 t2) := by
  rw [treeAssoc_assemble, treeAssoc_assemble, hct, ha, hk, hsib, ht]

theorem treeAssoc_plug_congr {t1 t2 : RBTree} (ctx : List Frame)
    (h : treeAssoc t1 = treeAssoc t2) :
    treeAssoc (plug t1 ctx) = treeAssoc (plug t2 ctx) := by
  rw [treeAssoc_plug, treeAssoc_plug, h]

theorem treeAssoc_case3Focus (f g : Frame) (focus : RBTree) :
    treeAssoc (case3Focus f g focus) = treeAssoc (assemble g (assemble f focus)) := by
  unfold case3Focus
  exact treeAssoc_assemble_congr _ _ _ _ rfl rfl rfl (treeAssoc_paintRoot _ _)
    (treeAssoc_assemble_congr _ _ _ _ rfl rfl rfl rfl rfl)

/-- `repair_tree` does not change the in-order sequence of `(key, address)`
pairs of the whole tree. -/
theorem repair_assoc : ∀ (ctx : List Frame) (focus t : RBTree),
    repairZ focus ctx = some t → treeAssoc t = treeAssoc (plug focus ctx)
  | [], focus, t, h => by
    rw [repairZ_nil] at h
    cases h
    simp [plug]
  | [f], focus, t, h => by
    cases hc : f.color with
    | red =>
      rw [repairZ_red_root focus f hc] at h
      cases h
    | black =>
      rw [repairZ_black focus f [] hc] at h
      cases h
      rfl
  | f :: g :: rest2, focus, t, h => by
    cases hc : f.color with
    | black =>
      rw [repairZ_black focus f (g :: rest2) hc] at h
      cases h
      rfl
    | red =>
      by_cases hu : g.sib.rootColor = Color.red
      · rw [repairZ_case3 focus f g rest2 hc hu] at h
        rw [repair_assoc rest2 (case3Focus f g focus) t h]
        show treeAssoc (plug (case3Focus f g focus) rest2) =
          treeAssoc (plug (assemble g (assemble f focus)) rest2)
        exact treeAssoc_plug_congr rest2 (treeAssoc_case3Focus f g focus)
      · rw [repairZ_case4 focus f g rest2 hc hu] at h
        cases hfct : f.ct with
        | left =>
          cases hgct : g.ct with
          | left =>
            rw [repairCase4_LL focus f g rest2 hfct hgct] at h
            cases h
            show treeAssoc (plug _ rest2) =
              treeAssoc (plug (assemble g (assemble f focus)) rest2)
            apply treeAssoc_plug_congr
            simp [treeAssoc_assemble, hfct, hgct]
          | right =>
            cases focus with
            | nil =>
              rw [repairCase4_LR_nil f g rest2 hfct hgct] at h
              cases h
            | node sa sk sc sp sl sr =>
              rw [repairCase4_LR sa sk sc sp sl sr f g rest2 hfct hgct] at h
              cases h
              show treeAssoc (plug _ rest2) =
                treeAssoc (plug (assemble g (assemble f (.node sa sk sc sp sl sr))) rest2)
              apply treeAssoc_plug_congr
              simp [treeAssoc_assemble, hfct, hgct]
        | right =>
          cases hgct : g.ct with
          | left =>
            cases focus with
            | nil =>
              rw [repairCase4_RL_nil f g rest2 hfct hgct] at h
              cases h
            | node sa sk sc sp sl sr =>
              rw [repairCase4_RL sa sk sc sp sl sr f g rest2 hfct hgct] at h
              cases h
              show treeAssoc (plug _ rest2) =
                treeAssoc (plug (assemble g (assemble f (.node sa sk sc sp sl sr))) rest2)
              apply treeAssoc_plug_congr
              simp [treeAssoc_assemble, hfct, hgct]
          | right =>
            rw [repairCase4_RR focus f g rest2 hfct hgct] at h
            cases h
            show treeAssoc (plug _ rest2) =
              treeAssoc (plug (assemble g (assemble f focus)) rest2)
            apply treeAssoc_plug_congr
            simp [treeAssoc_assemble, hfct, hgct]

/-! ## Repair succeeds and produces a black root -/

theorem rootColor_paintRoot_black (t : RBTree) :
    rootColor (paintRoot .black t) = Color.black := by
  cases t <;> rfl

theorem rootColor_plug_lastBlack (t : RBTree) (ctx : List Frame) (hne : ctx ≠ [])
    (hlb : lastBlack ctx) : rootColor (plug t ctx) = Color.black := by
  rw [rootColor_plug]
  rcases hgl : ctx.getLast? with _ | fr
  · exact absurd (by simpa using congrArg Option.isSome hgl)
      (by simpa using List.getLast?_isSome.2 hne)
  · simpa using hlb fr (Option.mem_def.2 hgl)

theorem rootColor_plug_blackRoot (t : RBTree) (ctx : List Frame)
    (ht : rootColor t = Color.black) (hlb : lastBlack ctx) :
    rootColor (plug t ctx) = Color.black := by
  rw [rootColor_plug]
  rcases hgl : ctx.getLast? with _ | fr
  · simpa using ht
  · simpa using hlb fr (Option.mem_def.2 hgl)

/-- Under the root invariant (the outermost frame, if any, is black),
`repair_tree` at a real node never panics, and the resulting whole tree has a
black root. -/
theorem repair_some : ∀ (ctx : List Frame) (focus : RBTree), focus ≠ .nil →
    lastBlack ctx → ∃ t, repairZ focus ctx = some t ∧ rootColor t = Color.black
  | [], focus, hne, hlb => by
    exact ⟨focus.paintRoot .black, repairZ_nil focus, rootColor_paintRoot_black focus⟩
  | [f], focus, hne, hlb => by
    cases hc : f.color with
    | red =>
      have hb : f.color = Color.black := hlb f (Option.mem_def.2 (by rfl))
      rw [hc] at hb
      cases hb
    | black =>
      exact ⟨plug focus [f], repairZ_black focus f [] hc,
        rootColor_plug_lastBlack focus [f] (by simp) hlb⟩
  | f :: g :: rest2, focus, hne, hlb => by
    cases hc : f.color with
    | black =>
      exact ⟨plug focus (f :: g :: rest2), repairZ_black focus f (g :: rest2) hc,
        rootColor_plug_lastBlack focus (f :: g :: rest2) (by simp) hlb⟩
    | red =>
      by_cases hu : g.sib.rootColor = Color.red
      · obtain ⟨t, ht, hb⟩ := repair_some rest2 (case3Focus f g focus)
          (assemble_ne_nil _ _) (lastBlack_drop2 f g rest2 hlb)
        exact ⟨t, by rw [repairZ_case3 focus f g rest2 hc hu]; exact ht, hb⟩
      · have hlb2 := lastBlack_drop2 f g rest2 hlb
        cases hfct : f.ct with
        | left =>
          cases hgct : g.ct with
          | left =>
            have heq := repairZ_case4 focus f g rest2 hc hu
            rw [repairCase4_LL focus f g rest2 hfct hgct] at heq
            exact ⟨_, heq, rootColor_plug_blackRoot _ rest2 rfl hlb2⟩
          | right =>
            cases focus with
            | nil => exact absurd rfl hne
            | node sa sk sc sp sl sr =>
              have heq := repairZ_case4 (.node sa sk sc sp sl sr) f g rest2 hc hu
              rw [repairCase4_LR sa sk sc sp sl sr f g rest2 hfct hgct] at heq
              exact ⟨_, heq, rootColor_plug_blackRoot _ rest2 rfl hlb2⟩
        | right =>
          cases hgct : g.ct with
          | left =>
            cases focus with
            | nil => exact absurd rfl hne
            | node sa sk sc sp sl sr =>
              have heq := repairZ_case4 (.node sa sk sc sp sl sr) f g rest2 hc hu
              rw [repairCase4_RL sa sk sc sp sl sr f g rest2 hfct hgct] at heq
              exact ⟨_, heq, rootColor_plug_blackRoot _ rest2 rfl hlb2⟩
          | right =>
            have heq := repairZ_case4 focus f g rest2 hc hu
            rw [repairCase4_RR focus f g rest2 hfct hgct] at heq
            exact ⟨_, heq, rootColor_plug_blackRoot _ rest2 rfl hlb2⟩

/-! ## Repair preserves position consistency -/

/-- `repair_tree` keeps every recorded position field equal to the slot the
node actually occupies: rotations rewrite the position fields of exactly the
nodes whose slots change. -/
theorem repair_posOk : ∀ (ctx : List Frame) (focus t : RBTree),
    posOk focus (posOfCtx ctx) → ctxPosOk ctx → repairZ focus ctx = some t →
    posOk t .root
  | [], focus, t, hpos, hctx, h => by
    rw [repairZ_nil] at h
    cases h
    exact posOk_paintRoot _ _ _ hpos
  | [f], focus, t, hpos, hctx, h => by
    cases hc : f.color with
    | red =>
      rw [repairZ_red_root focus f hc] at h
      cases h
    | black =>
      rw [repairZ_black focus f [] hc] at h
      cases h
      exact plug_posOk [f] focus hctx hpos
  | f :: g :: rest2, focus, t, hpos, hctx, h => by
    obtain ⟨hf1, hf2, hg1, hg2, hg3⟩ := hctx
    cases hc : f.color with
    | black =>
      rw [repairZ_black focus f (g :: rest2) hc] at h
      cases h
      exact plug_posOk (f :: g :: rest2) focus ⟨hf1, hf2, hg1, hg2, hg3⟩ hpos
    | red =>
      have hpos' : posOk focus (.child f.addr f.ct) := hpos
      have hfp : f.pos = TreePosition.child g.addr g.ct := hf1
      by_cases hu : g.sib.rootColor = Color.red
      · rw [repairZ_case3 focus f g rest2 hc hu] at h
        refine repair_posOk rest2 (case3Focus f g focus) t ?_ hg3 h
        exact assemble_posOk _ _ _ hg1
          (assemble_posOk _ _ _ hfp hpos' hf2)
          (posOk_paintRoot _ _ _ hg2)
      · rw [repairZ_case4 focus f g rest2 hc hu] at h
        cases hfct : f.ct with
        | left =>
          rw [hfct] at hpos' hf2
          cases hgct : g.ct with
          | left =>
            rw [repairCase4_LL focus f g rest2 hfct hgct] at h
            cases h
            refine plug_posOk rest2 _ hg3 ?_
            rw [hgct] at hg2
            exact ⟨hg1, hpos',
              ⟨rfl, posOk_setRootPos _ _ _ hf2, hg2⟩⟩
          | right =>
            cases focus with
            | nil =>
              rw [repairCase4_LR_nil f g rest2 hfct hgct] at h
              cases h
            | node sa sk sc sp sl sr =>
              rw [repairCase4_LR sa sk sc sp sl sr f g rest2 hfct hgct] at h
              cases h
              refine plug_posOk rest2 _ hg3 ?_
              rw [hgct] at hg2
              obtain ⟨hs1, hs2, hs3⟩ := hpos'
              exact ⟨hg1,
                ⟨rfl, hg2, posOk_setRootPos _ _ _ hs2⟩,
                ⟨rfl, posOk_setRootPos _ _ _ hs3, hf2⟩⟩
        | right =>
          rw [hfct] at hpos' hf2
          cases hgct : g.ct with
          | left =>
            cases focus with
            | nil =>
              rw [repairCase4_RL_nil f g rest2 hfct hgct] at h
              cases h
            | node sa sk sc sp sl sr =>
              rw [repairCase4_RL sa sk sc sp sl sr f g rest2 hfct hgct] at h
              cases h
              refine plug_posOk rest2 _ hg3 ?_
              rw [hgct] at hg2
              obtain ⟨hs1, hs2, hs3⟩ := hpos'
              exact ⟨hg1,
                ⟨rfl, hf2, posOk_setRootPos _ _ _ hs2⟩,
                ⟨rfl, posOk_setRootPos _ _ _ hs3, hg2⟩⟩
          | right =>
            rw [repairCase4_RR focus f g rest2 hfct hgct] at h
            cases h
            refine plug_posOk rest2 _ hg3 ?_
            rw [hgct] at hg2
            exact ⟨hg1,
              ⟨rfl, hg2, posOk_setRootPos _ _ _ hf2⟩, hpos'⟩

/-! ## Repair restores red-black color validity -/

theorem plug_validB_black_frame (f : Frame) (rest : List Frame) (n : Nat) (focus : RBTree)
    (hc : f.color = Color.black) (hv : validB focus = some n)
    (hw : ctxFitW (f :: rest) n) :
    ∃ m, validB (plug focus (f :: rest)) = some m := by
  obtain ⟨h1, h2, h3⟩ := hw
  refine plug_validB (f :: rest) (rootColor focus) n focus ⟨h1, ?_, h3⟩ hv (Or.inr rfl)
  intro hr
  rw [hc] at hr
  cases hr

/-- The heart of insert correctness: if the inserted (red) focus subtree is
internally valid with black height `n` and the surrounding context is valid
except possibly for a red-red violation at the focus's parent edge, then a
completing `repair_tree` yields a color-valid tree. -/
theorem repair_validB : ∀ (ctx : List Frame) (n : Nat) (focus t : RBTree),
    rootColor focus = Color.red → validB focus = some n → ctxFitW ctx n →
    repairZ focus ctx = some t → ∃ m, validB t = some m
  | [], n, focus, t, hroot, hv, _, h => by
    rw [repairZ_nil] at h
    cases h
    exact ⟨n + 1, validB_paintRoot_black hroot hv⟩
  | [f], n, focus, t, hroot, hv, hw, h => by
    cases hc : f.color with
    | red =>
      rw [repairZ_red_root focus f hc] at h
      cases h
    | black =>
      rw [repairZ_black focus f [] hc] at h
      cases h
      exact plug_validB_black_frame f [] n focus hc hv hw
  | f :: g :: rest2, n, focus, t, hroot, hv, hw, h => by
    cases hc : f.color with
    | black =>
      rw [repairZ_black focus f (g :: rest2) hc] at h
      cases h
      exact plug_validB_black_frame f (g :: rest2) n focus hc hv hw
    | red =>
      obtain ⟨h1, h2, hfit⟩ := hw
      have hsb : rootColor f.sib = Color.black := h2 hc
      rw [hc] at hfit
      obtain ⟨hg1, hg2, hg3⟩ := hfit
      have hg1' : validB g.sib = some n := hg1
      have cg : g.color = Color.black := by
        cases cgc : g.color with
        | black => rfl
        | red => exact absurd (hg2 cgc).1 (fun hh => Color.noConfusion hh)
      rw [cg] at hg3
      have hg3' : ctxFit rest2 Color.black (n + 1) := hg3
      by_cases hu : g.sib.rootColor = Color.red
      · rw [repairZ_case3 focus f g rest2 hc hu] at h
        have hinner : validB (assemble { f with color := Color.black } focus) =
            some (n + 1) :=
          validB_assemble { f with color := Color.black } hv h1
            (fun hr => Color.noConfusion hr)
        have huncle : validB (g.sib.paintRoot .black) = some (n + 1) :=
          validB_paintRoot_black hu hg1'
        have houter : validB (case3Focus f g focus) = some (n + 1) := by
          refine validB_assemble _ hinner huncle (fun _ => ⟨?_, ?_⟩)
          · exact rootColor_assemble _ focus
          · exact rootColor_paintRoot_black g.sib
        exact repair_validB rest2 (n + 1) (case3Focus f g focus) t
          (rootColor_assemble _ _) houter (ctxFit_to_W rest2 Color.black (n + 1) hg3') h
      · have hub : rootColor g.sib = Color.black := by
          cases hcol : g.sib.rootColor with
          | red => exact absurd hcol hu
          | black => rfl
        rw [repairZ_case4 focus f g rest2 hc hu] at h
        cases focus with
        | nil => exact absurd hroot (fun hh => Color.noConfusion hh)
        | node sa sk sc sp sl sr =>
          have hsc : sc = Color.red := hroot
          subst hsc
          obtain ⟨n', hsl, hsr, hn, hred⟩ := validB_node_inv hv
          have hslb := (hred rfl).1
          have hsrb := (hred rfl).2
          have hn2 : n = n' := hn
          subst hn2
          cases hfct : f.ct with
          | left =>
            cases hgct : g.ct with
            | left =>
              rw [repairCase4_LL _ f g rest2 hfct hgct] at h
              cases h
              refine plug_validB rest2 Color.black (n + 1) _ hg3' ?_ (Or.inl rfl)
              refine validB_node_black _ _ _ hv ?_
              refine validB_node_red _ _ _ ?_ hg1' ?_ hub
              · rw [validB_setRootPos]; exact h1
              · rw [rootColor_setRootPos]; exact hsb
            | right =>
              rw [repairCase4_LR sa sk _ sp sl sr f g rest2 hfct hgct] at h
              cases h
              rw [hc]
              refine plug_validB rest2 Color.black (n + 1) _ hg3' ?_ (Or.inl rfl)
              refine validB_node_black _ _ _ ?_ ?_
              · refine validB_node_red _ _ _ hg1' ?_ hub ?_
                · rw [validB_setRootPos]; exact hsl
                · rw [rootColor_setRootPos]; exact hslb
              · refine validB_node_red _ _ _ ?_ h1 ?_ hsb
                · rw [validB_setRootPos]; exact hsr
                · rw [rootColor_setRootPos]; exact hsrb
          | right =>
            cases hgct : g.ct with
            | left =>
              rw [repairCase4_RL sa sk _ sp sl sr f g rest2 hfct hgct] at h
              cases h
              rw [hc]
              refine plug_validB rest2 Color.black (n + 1) _ hg3' ?_ (Or.inl rfl)
              refine validB_node_black _ _ _ ?_ ?_
              · refine validB_node_red _ _ _ h1 ?_ hsb ?_
                · rw [validB_setRootPos]; exact hsl
                · rw [rootColor_setRootPos]; exact hslb
              · refine validB_node_red _ _ _ ?_ hg1' ?_ hub
                · rw [validB_setRootPos]; exact hsr
                · rw [rootColor_setRootPos]; exact hsrb
            | right =>
              rw [repairCase4_RR _ f g rest2 hfct hgct] at h
              cases h
              refine plug_validB rest2 Color.black (n + 1) _ hg3' ?_ (Or.inl rfl)
              refine validB_node_black _ _ _ ?_ hv
              refine validB_node_red _ _ _ hg1' ?_ hub ?_
              · rw [validB_setRootPos]; exact h1
              · rw [rootColor_setRootPos]; exact hsb

/-! ## Inversion of the state-level operations -/

theorem insertOp_inv {s : RBState} {path : List ChildType} {k : Nat}
    {s' : RBState} {a : Nat} (h : insertOp s path k = some (s', a)) :
    ∃ ctx, descend s.root path [] = some (ctx, .nil) ∧
      repairZ (.node s.nextAddr k .red (posOfCtx ctx) .nil .nil) ctx = some s'.root ∧
      s'.cache = cacheInsert k s.nextAddr s.cache ∧
      s'.nextAddr = s.nextAddr + 1 ∧ a = s.nextAddr := by
  rcases hdd : descend s.root path [] with _ | ⟨ctx, u⟩
  · rw [show insertOp s path k = none from by simp [insertOp, hdd]] at h
    cases h
  · cases u with
    | node a0 k0 c0 p0 l0 r0 =>
      rw [show insertOp s path k = none from by simp [insertOp, hdd]] at h
      cases h
    | nil =>
      rcases hrep : repairZ (.node s.nextAddr k .red (posOfCtx ctx) .nil .nil) ctx
        with _ | t
      · rw [show insertOp s path k = none from by simp [insertOp, hdd, hrep]] at h
        cases h
      · rw [show insertOp s path k =
            some (⟨t, cacheInsert k s.nextAddr s.cache, s.nextAddr + 1⟩, s.nextAddr)
          from by simp [insertOp, hdd, hrep]] at h
        cases h
        exact ⟨ctx, rfl, hrep, rfl, rfl, rfl⟩

theorem deleteOp_inv {s : RBState} {path : List ChildType} {s' : RBState}
    (h : deleteOp s path = some s') :
    ∃ ctx a k c p l r,
      descend s.root path [] = some (ctx, .node a k c p l r) ∧
      s'.cache = cacheRemove k s.cache ∧ s'.nextAddr = s.nextAddr ∧
      ((l = RBTree.nil ∧ r = RBTree.nil ∧ s'.root = plug .nil ctx) ∨
        (l = RBTree.nil ∧ r ≠ RBTree.nil ∧ p.isRoot = true ∧
          s'.root = plug (paintRoot .black (setRootPos r p)) ctx) ∨
        (l ≠ RBTree.nil ∧ r = RBTree.nil ∧ p.isRoot = true ∧
          s'.root = plug (paintRoot .black (setRootPos l p)) ctx)) := by
  rcases hdd : descend s.root path [] with _ | ⟨ctx, u⟩
  · rw [show deleteOp s path = none from by simp [deleteOp, hdd]] at h
    cases h
  · cases u with
    | nil =>
      rw [show deleteOp s path = none from by simp [deleteOp, hdd]] at h
      cases h
    | node a0 k0 c0 p0 l0 r0 =>
      refine ⟨ctx, a0, k0, c0, p0, l0, r0, rfl, ?_⟩
      by_cases hl : l0 = RBTree.nil
      · subst hl
        cases r0 with
        | nil =>
          rw [show deleteOp s path =
              some ⟨plug .nil ctx, cacheRemove k0 s.cache, s.nextAddr⟩
            from by simp [deleteOp, hdd]] at h
          cases h
          exact ⟨rfl, rfl, Or.inl ⟨rfl, rfl, rfl⟩⟩
        | node ra rk rc rp rl rr =>
          by_cases hpr : p0.isRoot
          · rw [show deleteOp s path =
                some ⟨plug (paintRoot .black (.node ra rk rc p0 rl rr)) ctx,
                  cacheRemove k0 s.cache, s.nextAddr⟩
              from by simp [deleteOp, hdd, hpr]] at h
            cases h
            exact ⟨rfl, rfl, Or.inr (Or.inl ⟨rfl, fun hh => RBTree.noConfusion hh,
              hpr, rfl⟩)⟩
          · rw [show deleteOp s path = none from by simp [deleteOp, hdd, hpr]] at h
            cases h
      · cases l0 with
        | nil => exact absurd rfl hl
        | node la lk lc lp ll lr =>
          by_cases hr : r0 = RBTree.nil
          · subst hr
            by_cases hpr : p0.isRoot
            · rw [show deleteOp s path =
                  some ⟨plug (paintRoot .black (.node la lk lc p0 ll lr)) ctx,
                    cacheRemove k0 s.cache, s.nextAddr⟩
                from by simp [deleteOp, hdd, hpr]] at h
              cases h
              exact ⟨rfl, rfl, Or.inr (Or.inr ⟨fun hh => RBTree.noConfusion hh, rfl,
                hpr, rfl⟩)⟩
            · rw [show deleteOp s path = none from by simp [deleteOp, hdd, hpr]] at h
              cases h
          · cases r0 with
            | nil => exact absurd rfl hr
            | node ra rk rc rp rl rr =>
              rw [show deleteOp s path = none from by simp [deleteOp, hdd]] at h
              cases h

theorem swapOp_inv {s : RBState} {k1 k2 : Nat} {s' : RBState}
    (h : swapOp s k1 k2 = some s') :
    ∃ a1 a2 x1 x2,
      cacheLookup k1 s.cache = some a1 ∧
      cacheLookup k2 (cacheRemove k1 s.cache) = some a2 ∧
      s.root.keyAt a1 = some x1 ∧ s.root.keyAt a2 = some x2 ∧
      s' = ⟨RBTree.setKeyAt (RBTree.setKeyAt s.root a1 x2) a2 x1,
        cacheInsert x1 a2 (cacheInsert x2 a1 (cacheRemove k2 (cacheRemove k1 s.cache))),
        s.nextAddr⟩ := by
  rcases h1 : cacheLookup k1 s.cache with _ | a1
  · rw [show swapOp s k1 k2 = none from by simp [swapOp, h1]] at h
    cases h
  · rcases h2 : cacheLookup k2 (cacheRemove k1 s.cache) with _ | a2
    · rw [show swapOp s k1 k2 = none from by simp [swapOp, h1, h2]] at h
      cases h
    · rcases h3 : s.root.keyAt a1 with _ | x1
      · rw [show swapOp s k1 k2 = none from by simp [swapOp, h1, h2, h3]] at h
        cases h
      · rcases h4 : s.root.keyAt a2 with _ | x2
        · rw [show swapOp s k1 k2 = none from by simp [swapOp, h1, h2, h3, h4]] at h
          cases h
        · rw [show swapOp s k1 k2 =
              some ⟨RBTree.setKeyAt (RBTree.setKeyAt s.root a1 x2) a2 x1,
                cacheInsert x1 a2 (cacheInsert x2 a1
                  (cacheRemove k2 (cacheRemove k1 s.cache))), s.nextAddr⟩
            from by simp [swapOp, h1, h2, h3, h4]] at h
          cases h
          exact ⟨a1, a2, x1, x2, rfl, rfl, h3, h4, rfl⟩

/-! ## Lemmas about the node cache -/

@[simp] theorem cacheLookup_nil (k : Nat) : cacheLookup k [] = none := rfl

theorem cacheLookup_cons (k : Nat) (e : Nat × Nat) (c : List (Nat × Nat)) :
    cacheLookup k (e :: c) = if e.1 = k then some e.2 else cacheLookup k c := by
  by_cases h : e.1 = k <;> simp [cacheLookup, List.find?_cons, h]

theorem cacheLookup_mem {k a : Nat} {c : List (Nat × Nat)}
    (h : cacheLookup k c = some a) : (k, a) ∈ c := by
  unfold cacheLookup at h
  rcases hf : c.find? (fun e => e.1 = k) with _ | e
  · rw [hf] at h
    cases h
  · rw [hf] at h
    have hm := List.mem_of_find?_eq_some hf
    have hk : e.1 = k := by simpa using List.find?_some hf
    have ha : e.2 = a := by simpa using h
    rw [← hk, ← ha]
    simpa using hm

theorem cacheLookup_eq_none {k : Nat} {c : List (Nat × Nat)} :
    cacheLookup k c = none ↔ ∀ e ∈ c, e.1 ≠ k := by
  unfold cacheLookup
  simp [List.find?_eq_none]

theorem cacheRemove_eq_self {k : Nat} {c : List (Nat × Nat)}
    (h : cacheLookup k c = none) : cacheRemove k c = c := by
  rw [cacheLookup_eq_none] at h
  unfold cacheRemove
  rw [List.filter_eq_self.2]
  intro e he
  simpa using h e he

theorem cacheLookup_cacheRemove_self (k : Nat) (c : List (Nat × Nat)) :
    cacheLookup k (cacheRemove k c) = none := by
  rw [cacheLookup_eq_none]
  intro e he
  have := List.of_mem_filter he
  simpa using this

theorem lookup_of_mem_nodup {k a : Nat} {c : List (Nat × Nat)} (h : (k, a) ∈ c)
    (hnd : (c.map Prod.fst).Nodup) : cacheLookup k c = some a := by
  induction c with
  | nil => simp at h
  | cons e rest ih =>
    rw [cacheLookup_cons]
    rcases List.mem_cons.1 h with he | hrest
    · rw [← he]
      simp
    · have hne : e.1 ≠ k := by
        intro hc
        have hmem : k ∈ rest.map Prod.fst := by
          simpa using List.mem_map_of_mem Prod.fst hrest
        rw [List.map_cons, List.nodup_cons] at hnd
        exact hnd.1 (hc ▸ hmem)
      rw [if_neg hne]
      rw [List.map_cons, List.nodup_cons] at hnd
      exact ih hrest hnd.2

theorem cacheLookup_isSome {k : Nat} {c : List (Nat × Nat)} :
    (cacheLookup k c).isSome ↔ ∃ a, (k, a) ∈ c := by
  constructor
  · intro h
    rcases Option.isSome_iff_exists.1 h with ⟨a, ha⟩
    exact ⟨a, cacheLookup_mem ha⟩
  · rintro ⟨a, ha⟩
    unfold cacheLookup
    rcases hf : c.find? (fun e => e.1 = k) with _ | e
    · exfalso
      rw [List.find?_eq_none] at hf
      have := hf (k, a) ha
      simp at this
    · rw [hf]
      simp

theorem cacheRemove_mem {k : Nat} {e : Nat × Nat} {c : List (Nat × Nat)} :
    e ∈ cacheRemove k c ↔ e ∈ c ∧ e.1 ≠ k := by
  unfold cacheRemove
  simp [List.mem_filter]

/-! ## Insert preserves the invariants -/

theorem posOfCtx_eq_root {ctx : List Frame} (h : posOfCtx ctx = .root) : ctx = [] := by
  cases ctx with
  | nil => rfl
  | cons f rest => exact absurd h (fun hh => TreePosition.noConfusion hh)

/-- A successful insert: the new tree is the repaired tree around the fresh
red node; root, position, and color invariants are restored, addresses stay
unambiguous, and — provided the key identity was not indexed before — the
cache again matches the reachable nodes. -/
theorem insert_preserves {s : RBState} {path : List ChildType} {k : Nat}
    {s' : RBState} {a : Nat} (hInv : Inv s) (h : insertOp s path k = some (s', a)) :
    s'.root.rootBlack ∧ RBTree.posOk s'.root .root ∧ (RBTree.validB s'.root).isSome ∧
      (RBTree.treeAddrs s'.root).Nodup ∧ RBTree.addrBound s'.root s'.nextAddr ∧
      (cacheLookup k s.cache = none →
        s'.cache.Perm (RBTree.treeAssoc s'.root) ∧ (RBTree.treeKeys s'.root).Nodup) := by
  obtain ⟨hval, hrb, hpos, hperm, hkeys, haddrs, hbound⟩ := hInv
  obtain ⟨ctx, hd, hrep, hcache, hna, haeq⟩ := insertOp_inv h
  have hplugnil : plug .nil ctx = s.root := by
    have := descend_plug path s.root [] ctx .nil hd
    simpa [plug] using this
  have hassoc0 : RBTree.treeAssoc s.root = ctxA ctx ++ ctxB ctx := by
    rw [← hplugnil, treeAssoc_plug]
    simp
  have hassoc1 : RBTree.treeAssoc s'.root = ctxA ctx ++ (k, s.nextAddr) :: ctxB ctx := by
    rw [repair_assoc ctx _ _ hrep, treeAssoc_plug]
    simp
  have hlb : lastBlack ctx := descend_lastBlack hrb hd
  refine ⟨?_, ?_, ?_, ?_, ?_, ?_⟩
  · obtain ⟨t', hrep', hb'⟩ := repair_some ctx
      (.node s.nextAddr k .red (posOfCtx ctx) .nil .nil)
      (fun hh => RBTree.noConfusion hh) hlb
    rw [hrep] at hrep'
    rw [rootBlack, Option.some.inj hrep']
    exact hb'
  · obtain ⟨hctxpos, _⟩ := descend_posOk path s.root [] ctx .nil trivial hpos hd
    exact repair_posOk ctx (.node s.nextAddr k .red (posOfCtx ctx) .nil .nil) s'.root
      ⟨rfl, trivial, trivial⟩ hctxpos hrep
  · obtain ⟨N, hN⟩ := Option.isSome_iff_exists.1 hval
    obtain ⟨n0, hv0, hfit⟩ := plug_validB_inv ctx .nil N (by rw [hplugnil]; exact hN)
    have hn0 : (0 : Nat) = n0 := Option.some.inj hv0
    subst hn0
    have hfit' : ctxFit ctx Color.black 0 := hfit
    obtain ⟨m, hm⟩ := repair_validB ctx 0
      (.node s.nextAddr k .red (posOfCtx ctx) .nil .nil) s'.root rfl
      (validB_node_red _ _ _ validB_nil validB_nil rfl rfl)
      (ctxFit_to_W ctx Color.black 0 hfit') hrep
    simp [hm]
  · rw [RBTree.treeAddrs, hassoc1, List.map_append, List.map_cons, List.nodup_middle,
      List.nodup_cons]
    constructor
    · intro hc
      have : s.nextAddr ∈ RBTree.treeAddrs s.root := by
        rw [RBTree.treeAddrs, hassoc0, List.map_append]
        exact hc
      exact absurd (hbound _ this) (lt_irrefl _)
    · have := haddrs
      rw [RBTree.treeAddrs, hassoc0, List.map_append] at this
      exact this
  · intro x hx
    rw [RBTree.treeAddrs, hassoc1, List.map_append, List.map_cons] at hx
    rw [hna]
    rcases List.mem_append.1 hx with hA | hB
    · have : x ∈ RBTree.treeAddrs s.root := by
        rw [RBTree.treeAddrs, hassoc0, List.map_append]
        exact List.mem_append_left _ hA
      exact Nat.lt_succ_of_lt (hbound _ this)
    · rcases List.mem_cons.1 hB with hx0 | hB'
      · rw [hx0]
        exact Nat.lt_succ_self _
      · have : x ∈ RBTree.treeAddrs s.root := by
          rw [RBTree.treeAddrs, hassoc0, List.map_append]
          exact List.mem_append_right _ hB'
        exact Nat.lt_succ_of_lt (hbound _ this)
  · intro hk
    have hknot : k ∉ (RBTree.treeAssoc s.root).map Prod.fst := by
      intro hc
      rcases List.mem_map.1 hc with ⟨e, he, hek⟩
      have hem : e ∈ s.cache := hperm.mem_iff.2 he
      exact (cacheLookup_eq_none.1 hk e hem) hek
    constructor
    · rw [hcache, cacheInsert, cacheRemove_eq_self hk, hassoc1]
      exact (hperm.cons (k, s.nextAddr) |>.trans
        (by rw [hassoc0]; exact List.perm_middle.symm))
    · rw [RBTree.treeKeys, hassoc1, List.map_append, List.map_cons, List.nodup_middle,
        List.nodup_cons]
      refine ⟨?_, ?_⟩
      · rw [← List.map_append, ← hassoc0]
        exact hknot
      · have := hkeys
        rw [RBTree.treeKeys, hassoc0, List.map_append] at this
        exact this

/-! ## Delete preserves the invariants other than black height -/

theorem noRR_setRootPos (t : RBTree) (q : TreePosition) (h : noRR t) :
    noRR (setRootPos t q) := by
  cases t with
  | nil => trivial
  | node a k c p l r => exact h

theorem cacheRemove_middle {k : Nat} (a : Nat) {L1 L2 : List (Nat × Nat)}
    (h : k ∉ (L1 ++ L2).map Prod.fst) :
    cacheRemove k (L1 ++ (k, a) :: L2) = L1 ++ L2 := by
  rw [List.map_append] at h
  unfold cacheRemove
  rw [List.filter_append, List.filter_cons]
  rw [if_neg (by simp)]
  rw [List.filter_eq_self.2, List.filter_eq_self.2]
  · intro e he
    simp only [decide_eq_true_eq]
    intro hc
    exact h (List.mem_append_right _ (hc ▸ List.mem_map_of_mem Prod.fst he))
  · intro e he
    simp only [decide_eq_true_eq]
    intro hc
    exact h (List.mem_append_left _ (hc ▸ List.mem_map_of_mem Prod.fst he))

/-- The cache/uniqueness part of the invariant after removing the entry of a
deleted node. -/
theorem delete_tail_invariants (s s' : RBState) (k a : Nat) (L1 L2 : List (Nat × Nat))
    (hassoc0 : RBTree.treeAssoc s.root = L1 ++ (k, a) :: L2)
    (hassoc1 : RBTree.treeAssoc s'.root = L1 ++ L2)
    (hcache : s'.cache = cacheRemove k s.cache)
    (hna : s'.nextAddr = s.nextAddr)
    (hperm : s.cache.Perm (RBTree.treeAssoc s.root))
    (hkeys : (RBTree.treeKeys s.root).Nodup)
    (haddrs : (RBTree.treeAddrs s.root).Nodup)
    (hbound : RBTree.addrBound s.root s.nextAddr) :
    s'.cache.Perm (RBTree.treeAssoc s'.root) ∧ (RBTree.treeKeys s'.root).Nodup ∧
      (RBTree.treeAddrs s'.root).Nodup ∧ RBTree.addrBound s'.root s'.nextAddr := by
  have hsub : List.Sublist (RBTree.treeAssoc s'.root) (RBTree.treeAssoc s.root) := by
    rw [hassoc0, hassoc1]
    exact (List.sublist_cons_self (k, a) L2).append_left L1
  have hknot : k ∉ (L1 ++ L2).map Prod.fst := by
    have := hkeys
    rw [RBTree.treeKeys, hassoc0, List.map_append, List.map_cons, List.nodup_middle,
      List.nodup_cons] at this
    rw [List.map_append]
    exact this.1
  refine ⟨?_, ?_, ?_, ?_⟩
  · rw [hcache, hassoc1]
    have step1 : (cacheRemove k s.cache).Perm (cacheRemove k (RBTree.treeAssoc s.root)) :=
      hperm.filter _
    rw [hassoc0, cacheRemove_middle a hknot] at step1
    exact step1
  · exact hkeys.sublist (hsub.map Prod.fst)
  · exact haddrs.sublist (hsub.map Prod.snd)
  · intro x hx
    rw [hna]
    exact hbound x ((hsub.map Prod.snd).subset hx)

/-- A completing delete preserves the root, no-red-red, position, and index
invariants (black-height consistency is *not* among them). -/
theorem delete_preserves {s : RBState} {path : List ChildType} {s' : RBState}
    (hInv : Inv s) (h : deleteOp s path = some s') :
    s'.root.rootBlack ∧ RBTree.posOk s'.root .root ∧ RBTree.noRR s'.root ∧
      s'.cache.Perm (RBTree.treeAssoc s'.root) ∧ (RBTree.treeKeys s'.root).Nodup ∧
      (RBTree.treeAddrs s'.root).Nodup ∧ RBTree.addrBound s'.root s'.nextAddr := by
  obtain ⟨hval, hrb, hpos, hperm, hkeys, haddrs, hbound⟩ := hInv
  obtain ⟨ctx, a, k, c, p, l, r, hd, hcache, hna, hcases⟩ := deleteOp_inv h
  have hplug : plug (.node a k c p l r) ctx = s.root := by
    have := descend_plug path s.root [] ctx _ hd
    simpa [plug] using this
  obtain ⟨hctxpos, hposn⟩ := descend_posOk path s.root [] ctx _ trivial hpos hd
  obtain ⟨hp, hpl, hpr⟩ := hposn
  have hlb : lastBlack ctx := descend_lastBlack hrb hd
  have hnoRR : noRR s.root := validB_noRR hval
  have hplugRR := (plug_noRR ctx (.node a k c p l r)).1 (by rw [hplug]; exact hnoRR)
  rcases hcases with ⟨hl, hr, hroot'⟩ | ⟨hl, hr, hpr0, hroot'⟩ | ⟨hl, hr, hpr0, hroot'⟩
  · subst hl
    subst hr
    have hassoc0 : RBTree.treeAssoc s.root = ctxA ctx ++ (k, a) :: ctxB ctx := by
      rw [← hplug, treeAssoc_plug]
      simp
    have hassoc1 : RBTree.treeAssoc s'.root = ctxA ctx ++ ctxB ctx := by
      rw [hroot', treeAssoc_plug]
      simp
    obtain ⟨hc1, hc2, hc3, hc4⟩ := delete_tail_invariants s s' k a _ _
      hassoc0 hassoc1 hcache hna hperm hkeys haddrs hbound
    refine ⟨?_, ?_, ?_, hc1, hc2, hc3, hc4⟩
    · rw [rootBlack, hroot']
      exact rootColor_plug_blackRoot .nil ctx rfl hlb
    · rw [hroot']
      exact plug_posOk ctx .nil hctxpos trivial
    · rw [hroot']
      exact (plug_noRR ctx .nil).2 ⟨ctxRR_mono_black ctx c hplugRR.1, trivial⟩
  · subst hl
    cases r with
    | nil => exact absurd rfl hr
    | node ra rk rc rp rl rr =>
      have hproot : p = TreePosition.root := by
        cases p with
        | root => rfl
        | child q d => exact absurd hpr0 (by simp [TreePosition.isRoot])
      have hctxnil : ctx = [] := posOfCtx_eq_root (by rw [← hp, hproot])
      subst hctxnil
      have hsroot : s.root = .node a k c p .nil (.node ra rk rc rp rl rr) := hplug.symm
      have hroot2 : s'.root = .node ra rk .black p rl rr := by
        rw [hroot', hproot]
        rfl
      have hassoc0 : RBTree.treeAssoc s.root =
          [] ++ (k, a) :: RBTree.treeAssoc (.node ra rk rc rp rl rr) := by
        rw [hsroot]
        simp
      have hassoc1 : RBTree.treeAssoc s'.root =
          [] ++ RBTree.treeAssoc (.node ra rk rc rp rl rr) := by
        rw [hroot2]
        simp
      obtain ⟨hc1, hc2, hc3, hc4⟩ := delete_tail_invariants s s' k a _ _
        hassoc0 hassoc1 hcache hna hperm hkeys haddrs hbound
      refine ⟨?_, ?_, ?_, hc1, hc2, hc3, hc4⟩
      · rw [rootBlack, hroot2]
        rfl
      · rw [hroot2, hproot]
        obtain ⟨_, hprl, hprr⟩ := hpr
        exact ⟨rfl, hprl, hprr⟩
      · rw [hroot2]
        obtain ⟨_, hrrl, hrrr⟩ := hplugRR.2.2.2
        exact ⟨(by intro hh; cases hh), hrrl, hrrr⟩
  · subst hr
    cases l with
    | nil => exact absurd rfl hl
    | node la lk lc lp ll lr =>
      have hproot : p = TreePosition.root := by
        cases p with
        | root => rfl
        | child q d => exact absurd hpr0 (by simp [TreePosition.isRoot])
      have hctxnil : ctx = [] := posOfCtx_eq_root (by rw [← hp, hproot])
      subst hctxnil
      have hsroot : s.root = .node a k c p (.node la lk lc lp ll lr) .nil := hplug.symm
      have hroot2 : s'.root = .node la lk .black p ll lr := by
        rw [hroot', hproot]
        rfl
      have hassoc0 : RBTree.treeAssoc s.root =
          RBTree.treeAssoc (.node la lk lc lp ll lr) ++ (k, a) :: [] := by
        rw [hsroot]
        simp
      have hassoc1 : RBTree.treeAssoc s'.root =
          RBTree.treeAssoc (.node la lk lc lp ll lr) ++ [] := by
        rw [hroot2]
        simp
      obtain ⟨hc1, hc2, hc3, hc4⟩ := delete_tail_invariants s s' k a _ _
        hassoc0 hassoc1 hcache hna hperm hkeys haddrs hbound
      refine ⟨?_, ?_, ?_, hc1, hc2, hc3, hc4⟩
      · rw [rootBlack, hroot2]
        rfl
      · rw [hroot2, hproot]
        obtain ⟨_, hprl, hprr⟩ := hpl
        exact ⟨rfl, hprl, hprr⟩
      · rw [hroot2]
        obtain ⟨_, hrrl, hrrr⟩ := hplugRR.2.2.1
        exact ⟨(by intro hh; cases hh), hrrl, hrrr⟩

/-! ## Swap: specification and invariant preservation -/

theorem cacheRemove_idem (k : Nat) (c : List (Nat × Nat)) :
    cacheRemove k (cacheRemove k c) = cacheRemove k c :=
  cacheRemove_eq_self (cacheLookup_cacheRemove_self k c)

theorem cacheRemove_cons_ne {k : Nat} {e : Nat × Nat} (c : List (Nat × Nat))
    (h : e.1 ≠ k) : cacheRemove k (e :: c) = e :: cacheRemove k c := by
  unfold cacheRemove
  rw [List.filter_cons, if_pos (by simpa using h)]

theorem cacheRemove_cons_self (k a : Nat) (c : List (Nat × Nat)) :
    cacheRemove k ((k, a) :: c) = cacheRemove k c := by
  unfold cacheRemove
  rw [List.filter_cons, if_neg (by simp)]

theorem keyAt_setKeyAt_ne (t : RBTree) (q k' x : Nat) (hne : x ≠ q) :
    keyAt (setKeyAt t q k') x = keyAt t x := by
  induction t with
  | nil => rfl
  | node a k c p l r ihl ihr =>
    simp only [setKeyAt, keyAt, ihl, ihr]
    by_cases hax : a = x
    · rw [if_pos hax, if_pos hax,
        if_neg (fun hh => hne (by rw [← hax]; exact hh))]
    · rw [if_neg hax, if_neg hax]

/-- A completing `swap` on two distinct indexed keys: the two nodes exchange
exactly their key references, the cache maps each key to the node now holding
it, and the whole invariant is preserved. -/
theorem swap_spec {s : RBState} {k1 k2 : Nat} {s' : RBState} (hInv : Inv s)
    (h : swapOp s k1 k2 = some s') :
    ∃ a1 a2, cacheLookup k1 s.cache = some a1 ∧ cacheLookup k2 s.cache = some a2 ∧
      a1 ≠ a2 ∧ k1 ≠ k2 ∧
      s'.root = RBTree.setKeyAt (RBTree.setKeyAt s.root a1 k2) a2 k1 ∧
      s'.nextAddr = s.nextAddr ∧
      cacheLookup k1 s'.cache = some a2 ∧ cacheLookup k2 s'.cache = some a1 ∧
      Inv s' := by
  obtain ⟨hval, hrb, hpos, hperm, hkeys, haddrs, hbound⟩ := hInv
  obtain ⟨a1, a2, x1, x2, h1, h2c, h3, h4, hs'⟩ := swapOp_inv h
  have hm1 : (k1, a1) ∈ s.cache := cacheLookup_mem h1
  have hm2both := cacheRemove_mem.1 (cacheLookup_mem h2c)
  have hm2 : (k2, a2) ∈ s.cache := hm2both.1
  have hne : k1 ≠ k2 := fun hh => hm2both.2 hh.symm
  have hM1 : (k1, a1) ∈ RBTree.treeAssoc s.root := hperm.mem_iff.1 hm1
  have hM2 : (k2, a2) ∈ RBTree.treeAssoc s.root := hperm.mem_iff.1 hm2
  have hx1 : x1 = k1 := by
    have := keyAt_of_mem hM1 haddrs
    rw [h3] at this
    exact Option.some.inj this
  have hx2 : x2 = k2 := by
    have := keyAt_of_mem hM2 haddrs
    rw [h4] at this
    exact Option.some.inj this
  rw [hx1] at h3
  rw [hx2] at h4
  rw [hx1, hx2] at hs'
  have ha12 : a1 ≠ a2 := by
    intro hh
    rw [hh, h4] at h3
    exact hne (Option.some.inj h3).symm
  have hentry : (k2, a2) ≠ (k1, a1) := by
    intro hh
    exact hne (congrArg Prod.fst hh).symm
  obtain ⟨E1, hp1⟩ : ∃ l', (RBTree.treeAssoc s.root).Perm ((k1, a1) :: l') :=
    ⟨_, List.perm_cons_erase hM1⟩
  have hM2E1 : (k2, a2) ∈ E1 := by
    rcases List.mem_cons.1 (hp1.mem_iff.1 hM2) with hh | hh
    · exact absurd hh hentry
    · exact hh
  obtain ⟨E, hp2⟩ : ∃ l', E1.Perm ((k2, a2) :: l') := ⟨_, List.perm_cons_erase hM2E1⟩
  have hchain : (RBTree.treeAssoc s.root).Perm ((k1, a1) :: (k2, a2) :: E) :=
    hp1.trans (hp2.cons _)
  have ndk : (k1 :: k2 :: E.map Prod.fst).Nodup := by
    have := ((hchain.map Prod.fst).nodup_iff).1 hkeys
    simpa using this
  have nda : (a1 :: a2 :: E.map Prod.snd).Nodup := by
    have := ((hchain.map Prod.snd).nodup_iff).1 haddrs
    simpa using this
  have hEa : ∀ e ∈ E, e.2 ≠ a1 ∧ e.2 ≠ a2 := by
    intro e he
    rw [List.nodup_cons, List.nodup_cons] at nda
    constructor
    · intro hh
      exact nda.1 (List.mem_cons_of_mem _ (hh ▸ List.mem_map_of_mem Prod.snd he))
    · intro hh
      exact nda.2.1 (hh ▸ List.mem_map_of_mem Prod.snd he)
  have hEk : ∀ e ∈ E, e.1 ≠ k1 ∧ e.1 ≠ k2 := by
    intro e he
    rw [List.nodup_cons, List.nodup_cons] at ndk
    constructor
    · intro hh
      exact ndk.1 (List.mem_cons_of_mem _ (hh ▸ List.mem_map_of_mem Prod.fst he))
    · intro hh
      exact ndk.2.1 (hh ▸ List.mem_map_of_mem Prod.fst he)
  have hroot' : s'.root = RBTree.setKeyAt (RBTree.setKeyAt s.root a1 k2) a2 k1 := by
    rw [hs']
  have hnext' : s'.nextAddr = s.nextAddr := by rw [hs']
  have hmapE1 : E.map (fun e => if e.2 = a1 then (k2, e.2) else e) = E := by
    rw [show E.map (fun e => if e.2 = a1 then (k2, e.2) else e) = E.map id from
      List.map_congr_left (fun e he => by rw [if_neg (hEa e he).1]; rfl), List.map_id]
  have hmapE2 : E.map (fun e => if e.2 = a2 then (k1, e.2) else e) = E := by
    rw [show E.map (fun e => if e.2 = a2 then (k1, e.2) else e) = E.map id from
      List.map_congr_left (fun e he => by rw [if_neg (hEa e he).2]; rfl), List.map_id]
  have hP : (RBTree.treeAssoc s'.root).Perm ((k2, a1) :: (k1, a2) :: E) := by
    rw [hroot', RBTree.treeAssoc_setKeyAt, RBTree.treeAssoc_setKeyAt]
    have heq : ((((k1, a1) :: (k2, a2) :: E).map
          (fun e => if e.2 = a1 then (k2, e.2) else e)).map
          (fun e => if e.2 = a2 then (k1, e.2) else e)) =
        (k2, a1) :: (k1, a2) :: E := by
      simp only [List.map_cons, hmapE1, hmapE2]
      simp [ha12]
    exact ((hchain.map _).map _).trans (heq ▸ List.Perm.refl _)
  have hc2E : (cacheRemove k2 (cacheRemove k1 s.cache)).Perm E := by
    have step1 : (cacheRemove k1 s.cache).Perm
        (cacheRemove k1 ((k1, a1) :: (k2, a2) :: E)) :=
      (hperm.trans hchain).filter _
    rw [cacheRemove_cons_self, cacheRemove_cons_ne _ (fun hh => hne hh.symm),
      cacheRemove_eq_self (cacheLookup_eq_none.2 (fun e he => (hEk e he).1))] at step1
    have step2 := step1.filter (fun e => ¬ e.1 = k2)
    rw [show (List.filter (fun e => ¬ e.1 = k2) ((k2, a2) :: E) : List (Nat × Nat)) =
        cacheRemove k2 ((k2, a2) :: E) from rfl] at step2
    rw [cacheRemove_cons_self,
      cacheRemove_eq_self (cacheLookup_eq_none.2 (fun e he => (hEk e he).2))] at step2
    exact step2
  have hfree : cacheLookup k1 (cacheRemove k2 (cacheRemove k1 s.cache)) = none := by
    rw [cacheLookup_eq_none]
    intro e he
    exact (cacheRemove_mem.1 (cacheRemove_mem.1 he).1).2
  have hcache' : s'.cache =
      (k1, a2) :: (k2, a1) :: cacheRemove k2 (cacheRemove k1 s.cache) := by
    rw [hs']
    show cacheInsert k1 a2 (cacheInsert k2 a1 (cacheRemove k2 (cacheRemove k1 s.cache))) = _
    rw [cacheInsert, cacheInsert, cacheRemove_idem,
      cacheRemove_cons_ne _ (fun hh => hne hh.symm), cacheRemove_eq_self hfree]
  have hpermNew : s'.cache.Perm (RBTree.treeAssoc s'.root) := by
    rw [hcache']
    refine List.Perm.trans ?_ hP.symm
    exact ((hc2E.cons (k2, a1)).cons (k1, a2)).trans (List.Perm.swap _ _ _)
  refine ⟨a1, a2, h1, lookup_of_mem_nodup hm2
    ((hperm.map Prod.fst).nodup_iff.2 hkeys), ha12, hne, hroot', hnext', ?_, ?_,
    ?_, ?_, ?_, hpermNew, ?_, ?_, ?_⟩
  · rw [hcache', cacheLookup_cons, if_pos rfl]
  · rw [hcache', cacheLookup_cons, if_neg hne, cacheLookup_cons, if_pos rfl]
  · rw [hroot']
    simpa using hval
  · rw [rootBlack, hroot', rootColor_setKeyAt, rootColor_setKeyAt]
    exact hrb
  · rw [hroot']
    exact posOk_setKeyAt _ _ _ _ (posOk_setKeyAt _ _ _ _ hpos)
  · show ((RBTree.treeAssoc s'.root).map Prod.fst).Nodup
    refine ((hP.map Prod.fst).nodup_iff).2 ?_
    simp only [List.map_cons]
    exact (List.Perm.swap k1 k2 (E.map Prod.fst)).nodup_iff.2 ndk
  · show ((RBTree.treeAssoc s'.root).map Prod.snd).Nodup
    refine ((hP.map Prod.snd).nodup_iff).2 ?_
    simp only [List.map_cons]
    exact nda
  · intro x hx
    rw [hnext']
    refine hbound x ?_
    have hx' : x ∈ (RBTree.treeAssoc s'.root).map Prod.snd := hx
    show x ∈ (RBTree.treeAssoc s.root).map Prod.snd
    rcases List.mem_map.1 ((hP.map Prod.snd).mem_iff.1 hx') with ⟨e, he, hee⟩
    rcases List.mem_cons.1 he with he1 | he'
    · rw [← hee, he1]
      simpa using List.mem_map_of_mem Prod.snd hM1
    · rcases List.mem_cons.1 he' with he2 | he''
      · rw [← hee, he2]
        simpa using List.mem_map_of_mem Prod.snd hM2
      · rw [← hee]
        exact List.mem_map_of_mem Prod.snd (hchain.mem_iff.2
          (List.mem_cons_of_mem _ (List.mem_cons_of_mem _ he'')))

/-! ## The root invariant through operation sequences -/

theorem insertOp_rootBlack {s s' : RBState} {path : List ChildType} {k a : Nat}
    (hrb : s.root.rootBlack) (h : insertOp s path k = some (s', a)) :
    s'.root.rootBlack := by
  obtain ⟨ctx, hd, hrep, _, _, _⟩ := insertOp_inv h
  obtain ⟨t', hrep', hb'⟩ := repair_some ctx
    (.node s.nextAddr k .red (posOfCtx ctx) .nil .nil)
    (fun hh => RBTree.noConfusion hh) (descend_lastBlack hrb hd)
  rw [hrep] at hrep'
  rw [rootBlack, Option.some.inj hrep']
  exact hb'

theorem deleteOp_rootBlack {s s' : RBState} {path : List ChildType}
    (hrb : s.root.rootBlack) (h : deleteOp s path = some s') :
    s'.root.rootBlack := by
  obtain ⟨ctx, a, k, c, p, l, r, hd, _, _, hcases⟩ := deleteOp_inv h
  have hlb := descend_lastBlack hrb hd
  rcases hcases with ⟨_, _, hroot'⟩ | ⟨_, _, _, hroot'⟩ | ⟨_, _, _, hroot'⟩
  · rw [rootBlack, hroot']
    exact rootColor_plug_blackRoot _ ctx rfl hlb
  · rw [rootBlack, hroot']
    exact rootColor_plug_blackRoot _ ctx (rootColor_paintRoot_black _) hlb
  · rw [rootBlack, hroot']
    exact rootColor_plug_blackRoot _ ctx (rootColor_paintRoot_black _) hlb

theorem swapOp_rootBlack {s s' : RBState} {k1 k2 : Nat}
    (hrb : s.root.rootBlack) (h : swapOp s k1 k2 = some s') :
    s'.root.rootBlack := by
  obtain ⟨a1, a2, x1, x2, _, _, _, _, hs'⟩ := swapOp_inv h
  rw [rootBlack, hs']
  show rootColor (RBTree.setKeyAt (RBTree.setKeyAt s.root a1 x2) a2 x1) = Color.black
  rw [rootColor_setKeyAt, rootColor_setKeyAt]
  exact hrb

theorem applyOp_rootBlack {s s' : RBState} {op : Op} (hrb : s.root.rootBlack)
    (h : applyOp s op = some s') : s'.root.rootBlack := by
  cases op with
  | ins path k =>
    rcases Option.map_eq_some'.1 h with ⟨⟨s0, a0⟩, hio, hs0⟩
    rw [← hs0]
    exact insertOp_rootBlack hrb hio
  | del path => exact deleteOp_rootBlack hrb h
  | swp k1 k2 => exact swapOp_rootBlack hrb h
  | get k =>
    cases h
    exact hrb

theorem runOps_rootBlack : ∀ (ops : List Op) (s s' : RBState), s.root.rootBlack →
    runOps s ops = some s' → s'.root.rootBlack
  | [], s, s', hrb, h => by
    rw [runOps] at h
    cases h
    exact hrb
  | op :: ops, s, s', hrb, h => by
    rw [runOps] at h
    rcases ha : applyOp s op with _ | s0
    · rw [ha] at h
      cases h
    · rw [ha] at h
      exact runOps_rootBlack ops s0 s' (applyOp_rootBlack hrb ha) h

/-- Unambiguous addresses make the key of an association entry a function of
its address. -/
theorem addr_unique {l : List (Nat × Nat)} (hnd : (l.map Prod.snd).Nodup)
    {k k' a : Nat} (h1 : (k, a) ∈ l) (h2 : (k', a) ∈ l) : k = k' := by
  have := List.inj_on_of_nodup_map hnd h1 h2 rfl
  exact congrArg Prod.fst this

theorem cacheLookup_remove_none {k k1 : Nat} {c : List (Nat × Nat)}
    (h : cacheLookup k c = none) : cacheLookup k (cacheRemove k1 c) = none := by
  rw [cacheLookup_eq_none] at h ⊢
  intro e he
  exact h e (cacheRemove_mem.1 he).1

/-! Sanity checks: the model reproduces the unit tests of the source file. -/

/-- `test_root_insert`: inserting `4` into the empty tree gives a black root. -/
example :
    runOps emptyState [.ins [] 4] =
      some ⟨.node 0 4 .black .root .nil .nil, [(4, 0)], 1⟩ := by decide

/-- `test_insert_children`: `4` at the root, `3` left, `5` right; children red. -/
example :
    runOps emptyState [.ins [] 4, .ins [.left] 3, .ins [.right] 5] =
      some ⟨.node 0 4 .black .root
        (.node 1 3 .red (.child 0 .left) .nil .nil)
        (.node 2 5 .red (.child 0 .right) .nil .nil),
        [(5, 2), (3, 1), (4, 0)], 3⟩ := by decide

/-- `test_insert_case_three`: red parent with red uncle recolors up to the root. -/
example :
    runOps emptyState [.ins [] 5, .ins [.right] 6, .ins [.left] 4, .ins [.left, .left] 3] =
      some ⟨.node 0 5 .black .root
        (.node 2 4 .black (.child 0 .left)
          (.node 3 3 .red (.child 2 .left) .nil .nil) .nil)
        (.node 1 6 .black (.child 0 .right) .nil .nil),
        [(3, 3), (4, 2), (6, 1), (5, 0)], 4⟩ := by decide

/-- `test_insert_rotate_right`: inserting `5, 4, 3` down the left spine
rotates the tree right around the root. -/
example :
    runOps emptyState [.ins [] 5, .ins [.left] 4, .ins [.left, .left] 3] =
      some ⟨.node 1 4 .black .root
        (.node 2 3 .red (.child 1 .left) .nil .nil)
        (.node 0 5 .red (.child 1 .right) .nil .nil),
        [(3, 2), (4, 1), (5, 0)], 3⟩ := by decide

/-- `test_two_rotation_insert`: the zig-zag `5, left 3, right-of-3 4`. -/
example :
    runOps emptyState [.ins [] 5, .ins [.left] 3, .ins [.left, .right] 4] =
      some ⟨.node 2 4 .black .root
        (.node 1 3 .red (.child 2 .left) .nil .nil)
        (.node 0 5 .red (.child 2 .right) .nil .nil),
        [(4, 2), (3, 1), (5, 0)], 3⟩ := by decide

/-- `test_two_rotation_insert_reverse`: the mirrored zig-zag `5, right 7,
left-of-7 6`. -/
example :
    runOps emptyState [.ins [] 5, .ins [.right] 7, .ins [.right, .left] 6] =
      some ⟨.node 2 6 .black .root
        (.node 0 5 .red (.child 2 .left) .nil .nil)
        (.node 1 7 .red (.child 2 .right) .nil .nil),
        [(6, 2), (7, 1), (5, 0)], 3⟩ := by decide

/-- `swap_test`: swapping the keys `5` and `6` exchanges key references and
index entries but nothing else. -/
example :
    runOps emptyState [.ins [] 5, .ins [.right] 6, .swp 5 6] =
      some ⟨.node 0 6 .black .root .nil
        (.node 1 5 .red (.child 0 .right) .nil .nil),
        [(5, 1), (6, 0)], 2⟩ := by decide

/-- `simple_delete`: deleting the one-child root promotes the child, black. -/
example :
    runOps emptyState [.ins [] 7, .ins [.left] 4, .del []] =
      some ⟨.node 1 4 .black .root .nil .nil, [(4, 1)], 2⟩ := by decide

/-! ## Claims -/

/-- C3: the repair procedure at a newly inserted node follows exactly the
four insert cases: (1) at the root, the node is colored black; (2) under a
black parent nothing happens; (3) with a red parent and red uncle, parent and
uncle are recolored black, the grandparent red, and repair recurses at the
grandparent; (4) with a red parent and black/absent uncle, a zig-zag is first
straightened by rotating the parent, then the grandparent is rotated opposite
the (new) node's side, the new parent becoming black and the demoted
grandparent red (shown for all four side configurations by the explicit
resulting subtrees, positions included). -/
theorem spec_c3_repair_cases :
    (∀ focus, repairZ focus [] = some (focus.paintRoot .black)) ∧
    (∀ focus f rest, f.color = Color.black →
      repairZ focus (f :: rest) = some (plug focus (f :: rest))) ∧
    (∀ focus f g rest2, f.color = Color.red → g.sib.rootColor = Color.red →
      repairZ focus (f :: g :: rest2) =
        repairZ (assemble { g with color := Color.red, sib := g.sib.paintRoot .black }
          (assemble { f with color := Color.black } focus)) rest2) ∧
    (∀ focus f g rest2, f.color = Color.red → ¬ g.sib.rootColor = Color.red →
      f.ct = ChildType.left → g.ct = ChildType.left →
      repairZ focus (f :: g :: rest2) =
        some (plug (.node f.addr f.key .black g.pos focus
          (.node g.addr g.key .red (.child f.addr .right)
            (setRootPos f.sib (.child g.addr .left)) g.sib)) rest2)) ∧
    (∀ focus f g rest2, f.color = Color.red → ¬ g.sib.rootColor = Color.red →
      f.ct = ChildType.right → g.ct = ChildType.right →
      repairZ focus (f :: g :: rest2) =
        some (plug (.node f.addr f.key .black g.pos
          (.node g.addr g.key .red (.child f.addr .left) g.sib
            (setRootPos f.sib (.child g.addr .right))) focus) rest2)) ∧
    (∀ sa sk sc sp sl sr f g rest2, f.color = Color.red →
      ¬ g.sib.rootColor = Color.red →
      f.ct = ChildType.right → g.ct = ChildType.left →
      repairZ (.node sa sk sc sp sl sr) (f :: g :: rest2) =
        some (plug (.node sa sk .black g.pos
          (.node f.addr f.key f.color (.child sa .left) f.sib
            (setRootPos sl (.child f.addr .right)))
          (.node g.addr g.key .red (.child sa .right)
            (setRootPos sr (.child g.addr .left)) g.sib)) rest2)) ∧
    (∀ sa sk sc sp sl sr f g rest2, f.color = Color.red →
      ¬ g.sib.rootColor = Color.red →
      f.ct = ChildType.left → g.ct = ChildType.right →
      repairZ (.node sa sk sc sp sl sr) (f :: g :: rest2) =
        some (plug (.node sa sk .black g.pos
          (.node g.addr g.key .red (.child sa .left) g.sib
            (setRootPos sl (.child g.addr .right)))
          (.node f.addr f.key f.color (.child sa .right)
            (setRootPos sr (.child f.addr .left)) f.sib)) rest2)) := by
  refine ⟨repairZ_nil, repairZ_black, ?_, ?_, ?_, ?_, ?_⟩
  · intro focus f g rest2 hf hu
    rw [repairZ_case3 focus f g rest2 hf hu]
    rfl
  · intro focus f g rest2 hf hu hfct hgct
    rw [repairZ_case4 focus f g rest2 hf hu, repairCase4_LL focus f g rest2 hfct hgct]
  · intro focus f g rest2 hf hu hfct hgct
    rw [repairZ_case4 focus f g rest2 hf hu, repairCase4_RR focus f g rest2 hfct hgct]
  · intro sa sk sc sp sl sr f g rest2 hf hu hfct hgct
    rw [repairZ_case4 _ f g rest2 hf hu, repairCase4_RL sa sk sc sp sl sr f g rest2 hfct hgct]
  · intro sa sk sc sp sl sr f g rest2 hf hu hfct hgct
    rw [repairZ_case4 _ f g rest2 hf hu, repairCase4_LR sa sk sc sp sl sr f g rest2 hfct hgct]

/-- Witness for C3: the zig-zag case at a concrete configuration (the
`test_two_rotation_insert` situation right after inserting `4`). -/
theorem spec_c3_witness :
    repairZ (RBTree.node 2 4 .red (.child 1 .right) .nil .nil)
        [⟨.right, 1, 3, .red, .child 0 .left, .nil⟩,
         ⟨.left, 0, 5, .black, .root, .nil⟩] =
      some (.node 2 4 .black .root
        (.node 1 3 .red (.child 2 .left) .nil .nil)
        (.node 0 5 .red (.child 2 .right) .nil .nil)) := by
  have := spec_c3_repair_cases.2.2.2.2.2.1 2 4 Color.red (.child 1 .right) .nil .nil
    ⟨.right, 1, 3, .red, .child 0 .left, .nil⟩
    ⟨.left, 0, 5, .black, .root, .nil⟩ [] rfl (by decide) rfl rfl
  rw [this]
  rfl

/-- C5: rotating a node in direction `d` promotes the child opposite `d`
into the node's slot (taking over its recorded position); the promoted
child's former `d`-side subtree becomes the rotated node's new child opposite
`d`; the in-order association (hence the in-order sequence of key handles) of
the subtree and of any whole tree around it is unchanged; position
consistency is preserved (the affected nodes' position fields are rewritten
to their new slots); and a cache that matched the tree's key/address
association before still matches it exactly afterwards (the rotation never
touches the index).  Rotation aborts iff the child opposite `d` is absent. -/
theorem spec_c5_rotation :
    (∀ a k c p l ra rk rc rp rl rr,
      RBTree.rotate (.node a k c p l (.node ra rk rc rp rl rr)) .left =
        some (.node ra rk rc p
          (.node a k c (.child ra .left) l (setRootPos rl (.child a .right))) rr)) ∧
    (∀ a k c p la lk lc lp ll lr r,
      RBTree.rotate (.node a k c p (.node la lk lc lp ll lr) r) .right =
        some (.node la lk lc p ll
          (.node a k c (.child la .right) (setRootPos lr (.child a .left)) r))) ∧
    (∀ a k c p l, RBTree.rotate (.node a k c p l .nil) .left = none) ∧
    (∀ a k c p r, RBTree.rotate (.node a k c p .nil r) .right = none) ∧
    (∀ t t' d, RBTree.rotate t d = some t' →
      RBTree.treeAssoc t' = RBTree.treeAssoc t ∧
      (∀ ctx, RBTree.treeAssoc (plug t' ctx) = RBTree.treeAssoc (plug t ctx)) ∧
      (∀ q, RBTree.posOk t q → RBTree.posOk t' q) ∧
      (∀ ctx (cache : List (Nat × Nat)), cache.Perm (RBTree.treeAssoc (plug t ctx)) →
        cache.Perm (RBTree.treeAssoc (plug t' ctx)))) := by
  refine ⟨fun _ _ _ _ _ _ _ _ _ _ _ => rfl, fun _ _ _ _ _ _ _ _ _ _ _ => rfl,
    fun _ _ _ _ _ => rfl, fun _ _ _ _ _ => rfl, ?_⟩
  intro t t' d h
  have hassoc := treeAssoc_rotate h
  refine ⟨hassoc, fun ctx => treeAssoc_plug_congr ctx hassoc,
    fun q hq => posOk_rotate hq h, ?_⟩
  intro ctx cache hp
  rw [treeAssoc_plug_congr ctx hassoc]
  exact hp

/-- Witness for C5: the consequence part applied to a concrete left
rotation. -/
theorem spec_c5_witness :
    RBTree.treeAssoc (RBTree.node 1 6 .red .root
        (.node 0 5 .black (.child 1 .left) .nil (setRootPos .nil (.child 0 .right)))
        .nil) =
      RBTree.treeAssoc (RBTree.node 0 5 .black .root .nil
        (.node 1 6 .red (.child 0 .right) .nil .nil)) :=
  (spec_c5_rotation.2.2.2.2
    (RBTree.node 0 5 .black .root .nil (.node 1 6 .red (.child 0 .right) .nil .nil))
    _ .left rfl).1

/-- C7: after any sequence of inserts and (supported, i.e. completing)
deletes starting from the empty tree, the root node — an empty root slot
counting as black — is black. -/
theorem spec_c7_root_black (ops : List Op) (s' : RBState)
    (_hops : ∀ op ∈ ops, op.insOrDel = true)
    (h : runOps emptyState ops = some s') : s'.root.rootBlack :=
  runOps_rootBlack ops emptyState s' rfl h

/-- Witness for C7: the `simple_delete` sequence ends in a black root. -/
theorem spec_c7_witness :
    (∀ op ∈ [Op.ins [] 7, Op.ins [.left] 4, Op.del []], op.insOrDel = true) ∧
    RBTree.rootBlack
      (RBState.root ⟨.node 1 4 .black .root .nil .nil, [(4, 1)], 2⟩) :=
  ⟨by decide, spec_c7_root_black [Op.ins [] 7, Op.ins [.left] 4, Op.del []]
    ⟨.node 1 4 .black .root .nil .nil, [(4, 1)], 2⟩ (by decide) (by decide)⟩

/-- C9: for an indexed key handle `k`, `swap(k, k)` panics at the second
index removal (`swapOp` aborts); at that moment the index — namely
`cacheRemove k s.cache`, the cache after the only mutation performed before
the panic — no longer contains an entry for `k`, while `k`'s node is still
reachable in the (unmodified) tree, so index soundness is left violated. -/
theorem spec_c9_swap_self (s : RBState) (k a : Nat) (hInv : Inv s)
    (h : cacheLookup k s.cache = some a) :
    swapOp s k k = none ∧
    cacheLookup k (cacheRemove k s.cache) = none ∧
    (k, a) ∈ RBTree.treeAssoc s.root := by
  obtain ⟨_, _, _, hperm, _, _, _⟩ := hInv
  refine ⟨?_, cacheLookup_cacheRemove_self k s.cache,
    hperm.mem_iff.1 (cacheLookup_mem h)⟩
  simp [swapOp, h, cacheLookup_cacheRemove_self]

/-- Witness for C9: a one-node tree holding key `5`. -/
theorem spec_c9_witness :
    Inv ⟨.node 0 5 .black .root .nil .nil, [(5, 0)], 1⟩ ∧
    (swapOp ⟨.node 0 5 .black .root .nil .nil, [(5, 0)], 1⟩ 5 5 = none ∧
      cacheLookup 5 (cacheRemove 5 [(5, 0)]) = none ∧
      (5, 0) ∈ RBTree.treeAssoc (.node 0 5 .black .root .nil .nil)) :=
  ⟨by decide, spec_c9_swap_self ⟨.node 0 5 .black .root .nil .nil, [(5, 0)], 1⟩ 5 0
    (by decide) (by decide)⟩

/-- C8: `get` returns a node address exactly when the key identity is
indexed, which under the invariant is exactly when some reachable node holds
that key identity; the returned address is that of a reachable node whose
stored key handle has the queried identity; an unindexed key yields the
empty result, and `get` never aborts and never modifies the state. -/
theorem spec_c8_get (s : RBState) (k : Nat) (hInv : Inv s) :
    ((getOp s k).isSome ↔ ∃ a, (k, a) ∈ RBTree.treeAssoc s.root) ∧
    (∀ a, getOp s k = some a →
      (k, a) ∈ RBTree.treeAssoc s.root ∧ s.root.keyAt a = some k) ∧
    applyOp s (.get k) = some s := by
  obtain ⟨_, _, _, hperm, _, haddrs, _⟩ := hInv
  refine ⟨?_, ?_, rfl⟩
  · show (cacheLookup k s.cache).isSome ↔ _
    rw [cacheLookup_isSome]
    constructor
    · rintro ⟨a, ha⟩
      exact ⟨a, hperm.mem_iff.1 ha⟩
    · rintro ⟨a, ha⟩
      exact ⟨a, hperm.mem_iff.2 ha⟩
  · intro a ha
    have hm : (k, a) ∈ RBTree.treeAssoc s.root := hperm.mem_iff.1 (cacheLookup_mem ha)
    exact ⟨hm, keyAt_of_mem hm haddrs⟩

/-- Witness for C8: lookup of the present key `5` and the absent key `6`. -/
theorem spec_c8_witness :
    Inv ⟨.node 0 5 .black .root .nil .nil, [(5, 0)], 1⟩ ∧
    ((getOp ⟨.node 0 5 .black .root .nil .nil, [(5, 0)], 1⟩ 5).isSome ↔
      ∃ a, (5, a) ∈ RBTree.treeAssoc (.node 0 5 .black .root .nil .nil)) :=
  ⟨by decide,
    (spec_c8_get ⟨.node 0 5 .black .root .nil .nil, [(5, 0)], 1⟩ 5 (by decide)).1⟩

/-- C1 (amended): `delete` on a node with **no** children removes the node —
the empty slot replaces it and its index entry is removed; `delete` on a
**root** node with exactly one child removes it, the sole child replacing it
at the root recolored black, the index entry removed; but `delete` on a
**non-root** node with exactly one child, and on any node with two children,
panics (`unimplemented!`) instead of removing the node. -/
theorem spec_c1_delete_cases (s : RBState) (path : List ChildType) (ctx : List Frame)
    (a k : Nat) (c : Color) (p : TreePosition) (l r : RBTree)
    (hd : descend s.root path [] = some (ctx, .node a k c p l r)) :
    (l = RBTree.nil → r = RBTree.nil →
      deleteOp s path = some ⟨plug .nil ctx, cacheRemove k s.cache, s.nextAddr⟩ ∧
      RBTree.treeAssoc (plug RBTree.nil ctx) = ctxA ctx ++ ctxB ctx ∧
      RBTree.treeAssoc s.root = ctxA ctx ++ (k, a) :: ctxB ctx ∧
      cacheLookup k (cacheRemove k s.cache) = none) ∧
    (l = RBTree.nil → r ≠ RBTree.nil → p.isRoot = true →
      deleteOp s path = some ⟨plug (paintRoot .black (setRootPos r p)) ctx,
        cacheRemove k s.cache, s.nextAddr⟩ ∧
      RBTree.rootColor (paintRoot .black (setRootPos r p)) = Color.black ∧
      cacheLookup k (cacheRemove k s.cache) = none) ∧
    (l ≠ RBTree.nil → r = RBTree.nil → p.isRoot = true →
      deleteOp s path = some ⟨plug (paintRoot .black (setRootPos l p)) ctx,
        cacheRemove k s.cache, s.nextAddr⟩ ∧
      RBTree.rootColor (paintRoot .black (setRootPos l p)) = Color.black ∧
      cacheLookup k (cacheRemove k s.cache) = none) ∧
    (l = RBTree.nil → r ≠ RBTree.nil → p.isRoot = false → deleteOp s path = none) ∧
    (l ≠ RBTree.nil → r = RBTree.nil → p.isRoot = false → deleteOp s path = none) ∧
    (l ≠ RBTree.nil → r ≠ RBTree.nil → deleteOp s path = none) := by
  have hplug : plug (.node a k c p l r) ctx = s.root := by
    have := descend_plug path s.root [] ctx _ hd
    simpa [plug] using this
  refine ⟨?_, ?_, ?_, ?_, ?_, ?_⟩
  · intro hl hr
    subst hl
    subst hr
    refine ⟨by simp [deleteOp, hd], ?_, ?_, cacheLookup_cacheRemove_self k s.cache⟩
    · rw [treeAssoc_plug]
      simp
    · rw [← hplug, treeAssoc_plug]
      simp
  · intro hl hr hpr
    subst hl
    cases r with
    | nil => exact absurd rfl hr
    | node ra rk rc rp rl rr =>
      exact ⟨by simp [deleteOp, hd, hpr], rootColor_paintRoot_black _,
        cacheLookup_cacheRemove_self k s.cache⟩
  · intro hl hr hpr
    subst hr
    cases l with
    | nil => exact absurd rfl hl
    | node la lk lc lp ll lr =>
      exact ⟨by simp [deleteOp, hd, hpr], rootColor_paintRoot_black _,
        cacheLookup_cacheRemove_self k s.cache⟩
  · intro hl hr hpr
    subst hl
    cases r with
    | nil => exact absurd rfl hr
    | node ra rk rc rp rl rr => simp [deleteOp, hd, hpr]
  · intro hl hr hpr
    subst hr
    cases l with
    | nil => exact absurd rfl hl
    | node la lk lc lp ll lr => simp [deleteOp, hd, hpr]
  · intro hl hr
    cases l with
    | nil => exact absurd rfl hl
    | node la lk lc lp ll lr =>
      cases r with
      | nil => exact absurd rfl hr
      | node ra rk rc rp rl rr => simp [deleteOp, hd]

/-- Counterexample to C1 as stated: in a valid tree, the node holding key
`3` (address `2`) has exactly one child (the red `4`) — at most one child —
yet `delete` does not remove it: it panics. -/
theorem spec_c1_counterexample :
    Inv ⟨.node 0 2 .black .root
        (.node 1 1 .black (.child 0 .left) .nil .nil)
        (.node 2 3 .black (.child 0 .right) .nil
          (.node 3 4 .red (.child 2 .right) .nil .nil)),
      [(1, 1), (2, 0), (3, 2), (4, 3)], 4⟩ ∧
    descend (RBTree.node 0 2 .black .root
        (.node 1 1 .black (.child 0 .left) .nil .nil)
        (.node 2 3 .black (.child 0 .right) .nil
          (.node 3 4 .red (.child 2 .right) .nil .nil))) [.right] [] =
      some ([⟨.right, 0, 2, .black, .root,
          .node 1 1 .black (.child 0 .left) .nil .nil⟩],
        .node 2 3 .black (.child 0 .right) .nil
          (.node 3 4 .red (.child 2 .right) .nil .nil)) ∧
    deleteOp ⟨.node 0 2 .black .root
        (.node 1 1 .black (.child 0 .left) .nil .nil)
        (.node 2 3 .black (.child 0 .right) .nil
          (.node 3 4 .red (.child 2 .right) .nil .nil)),
      [(1, 1), (2, 0), (3, 2), (4, 3)], 4⟩ [.right] = none := by
  refine ⟨by decide, by decide, by decide⟩

/-- Witness for C1: the `simple_delete` scenario — deleting the one-child
root `7` promotes the black-recolored child `4`. -/
theorem spec_c1_witness :
    descend (RBTree.node 0 7 .black .root
        (.node 1 4 .red (.child 0 .left) .nil .nil) .nil) [] [] =
      some ([], .node 0 7 .black .root
        (.node 1 4 .red (.child 0 .left) .nil .nil) .nil) ∧
    deleteOp ⟨.node 0 7 .black .root
        (.node 1 4 .red (.child 0 .left) .nil .nil) .nil, [(7, 0), (4, 1)], 2⟩ [] =
      some ⟨plug (paintRoot .black
          (setRootPos (.node 1 4 .red (.child 0 .left) .nil .nil) .root)) [],
        cacheRemove 7 [(7, 0), (4, 1)], 2⟩ := by
  refine ⟨by decide, ?_⟩
  exact ((spec_c1_delete_cases
    ⟨.node 0 7 .black .root (.node 1 4 .red (.child 0 .left) .nil .nil) .nil,
      [(7, 0), (4, 1)], 2⟩ [] [] 0 7 .black .root
    (.node 1 4 .red (.child 0 .left) .nil .nil) .nil (by decide)).2.2.1
    (by decide) (by decide) (by decide)).1

/-- C4: for every empty slot (a caller descent ending at an empty
container) in a tree with a black (or absent) root, `insert` allocates a new
red node in that slot with the slot's position descriptor, registers the key
identity in the index mapped to the new node, then runs the repair
procedure, and returns a cursor to the newly inserted node (its stable
address `s.nextAddr`, which afterwards holds key `k` in the tree); the
insertion completes without any failure. -/
theorem spec_c4_insert (s : RBState) (path : List ChildType) (k : Nat)
    (ctx : List Frame) (hrb : s.root.rootBlack)
    (hd : descend s.root path [] = some (ctx, .nil)) :
    ∃ s', insertOp s path k = some (s', s.nextAddr) ∧
      repairZ (.node s.nextAddr k .red (posOfCtx ctx) .nil .nil) ctx = some s'.root ∧
      s'.cache = cacheInsert k s.nextAddr s.cache ∧
      cacheLookup k s'.cache = some s.nextAddr ∧
      (k, s.nextAddr) ∈ RBTree.treeAssoc s'.root ∧
      s'.nextAddr = s.nextAddr + 1 := by
  obtain ⟨t, hrep, _⟩ := repair_some ctx
    (.node s.nextAddr k .red (posOfCtx ctx) .nil .nil)
    (fun hh => RBTree.noConfusion hh) (descend_lastBlack hrb hd)
  refine ⟨⟨t, cacheInsert k s.nextAddr s.cache, s.nextAddr + 1⟩,
    by simp [insertOp, hd, hrep], hrep, rfl, ?_, ?_, rfl⟩
  · rw [cacheInsert, cacheLookup_cons, if_pos rfl]
  · show (k, s.nextAddr) ∈ RBTree.treeAssoc t
    rw [repair_assoc ctx _ _ hrep, treeAssoc_plug]
    simp

/-- Witness for C4: inserting key `3` at the left child slot of a one-node
tree. -/
theorem spec_c4_witness :
    RBTree.rootBlack (.node 0 4 .black .root .nil .nil) ∧
    ∃ s', insertOp ⟨.node 0 4 .black .root .nil .nil, [(4, 0)], 1⟩ [.left] 3 =
        some (s', 1) ∧
      repairZ (.node 1 3 .red (posOfCtx [⟨.left, 0, 4, .black, .root, .nil⟩])
          .nil .nil) [⟨.left, 0, 4, .black, .root, .nil⟩] = some s'.root ∧
      s'.cache = cacheInsert 3 1 [(4, 0)] ∧
      cacheLookup 3 s'.cache = some 1 ∧
      (3, 1) ∈ RBTree.treeAssoc s'.root ∧
      s'.nextAddr = 2 :=
  ⟨by decide, spec_c4_insert ⟨.node 0 4 .black .root .nil .nil, [(4, 0)], 1⟩
    [.left] 3 [⟨.left, 0, 4, .black, .root, .nil⟩] (by decide) (by decide)⟩

/-- C10: inserting a key identity that is already indexed succeeds and
silently overwrites the index entry: afterwards the index maps `k` to the
new node, the earlier node holding `k` is still reachable in the tree, but
no index entry points at it any more — the "exactly one index entry per
reachable node" invariant is broken. -/
theorem spec_c10_duplicate_insert (s : RBState) (path : List ChildType)
    (k a0 : Nat) (ctx : List Frame) (hInv : Inv s)
    (h0 : cacheLookup k s.cache = some a0)
    (hd : descend s.root path [] = some (ctx, .nil)) :
    ∃ s', insertOp s path k = some (s', s.nextAddr) ∧
      cacheLookup k s'.cache = some s.nextAddr ∧
      a0 ≠ s.nextAddr ∧
      (k, a0) ∈ RBTree.treeAssoc s'.root ∧
      (∀ k', cacheLookup k' s'.cache ≠ some a0) := by
  obtain ⟨hval, hrb, hpos, hperm, hkeys, haddrs, hbound⟩ := hInv
  obtain ⟨t, hrep, _⟩ := repair_some ctx
    (.node s.nextAddr k .red (posOfCtx ctx) .nil .nil)
    (fun hh => RBTree.noConfusion hh) (descend_lastBlack hrb hd)
  have hplugnil : plug .nil ctx = s.root := by
    have := descend_plug path s.root [] ctx .nil hd
    simpa [plug] using this
  have hassoc0 : RBTree.treeAssoc s.root = ctxA ctx ++ ctxB ctx := by
    rw [← hplugnil, treeAssoc_plug]
    simp
  have hm0 : (k, a0) ∈ RBTree.treeAssoc s.root := hperm.mem_iff.1 (cacheLookup_mem h0)
  have ha0lt : a0 < s.nextAddr := hbound a0 (List.mem_map_of_mem Prod.snd hm0)
  refine ⟨⟨t, cacheInsert k s.nextAddr s.cache, s.nextAddr + 1⟩,
    by simp [insertOp, hd, hrep], ?_, ?_, ?_, ?_⟩
  · show cacheLookup k (cacheInsert k s.nextAddr s.cache) = some s.nextAddr
    rw [cacheInsert, cacheLookup_cons, if_pos rfl]
  · exact fun hh => absurd (hh ▸ ha0lt) (lt_irrefl _)
  · show (k, a0) ∈ RBTree.treeAssoc t
    rw [repair_assoc ctx _ _ hrep, treeAssoc_plug]
    rw [hassoc0] at hm0
    rcases List.mem_append.1 hm0 with hA | hB
    · exact List.mem_append_left _ (List.mem_append_left _ hA)
    · exact List.mem_append_right _ hB
  · intro k' hc
    have hmem : (k', a0) ∈ cacheInsert k s.nextAddr s.cache := cacheLookup_mem hc
    rw [cacheInsert] at hmem
    rcases List.mem_cons.1 hmem with hh | hh
    · have ha : a0 = s.nextAddr := congrArg Prod.snd hh
      exact absurd ha (Nat.ne_of_lt ha0lt)
    · obtain ⟨hin, hne⟩ := cacheRemove_mem.1 hh
      have hm' : (k', a0) ∈ RBTree.treeAssoc s.root := hperm.mem_iff.1 hin
      exact hne (addr_unique haddrs hm' hm0)

/-- Witness for C10: key `5` is indexed at the root node; inserting `5`
again at the right child slot overwrites its index entry. -/
theorem spec_c10_witness :
    Inv ⟨.node 0 5 .black .root .nil .nil, [(5, 0)], 1⟩ ∧
    ∃ s', insertOp ⟨.node 0 5 .black .root .nil .nil, [(5, 0)], 1⟩ [.right] 5 =
        some (s', 1) ∧
      cacheLookup 5 s'.cache = some 1 ∧
      (0 : Nat) ≠ 1 ∧
      (5, 0) ∈ RBTree.treeAssoc s'.root ∧
      (∀ k', cacheLookup k' s'.cache ≠ some 0) :=
  ⟨by decide, spec_c10_duplicate_insert ⟨.node 0 5 .black .root .nil .nil, [(5, 0)], 1⟩
    [.right] 5 0 [⟨.right, 0, 5, .black, .root, .nil⟩] (by decide) (by decide)
    (by decide)⟩

/-- C6: swapping two distinct indexed key handles exchanges only the key
references held by their two nodes (every node's address, color, children and
position descriptor — i.e. the tree with keys erased — is unchanged, and the
key of every other node is untouched) and updates the two index entries so
each key maps to the node now holding it; if either key is not indexed, the
swap fails. -/
theorem spec_c6_swap (s : RBState) (k1 k2 : Nat) (hInv : Inv s) :
    (∀ a1 a2, cacheLookup k1 s.cache = some a1 → cacheLookup k2 s.cache = some a2 →
      k1 ≠ k2 →
      ∃ s', swapOp s k1 k2 = some s' ∧
        s'.root = RBTree.setKeyAt (RBTree.setKeyAt s.root a1 k2) a2 k1 ∧
        RBTree.eraseKeys s'.root = RBTree.eraseKeys s.root ∧
        s'.nextAddr = s.nextAddr ∧
        s'.root.keyAt a2 = some k1 ∧ s'.root.keyAt a1 = some k2 ∧
        (∀ q, q ≠ a1 → q ≠ a2 → s'.root.keyAt q = s.root.keyAt q) ∧
        cacheLookup k1 s'.cache = some a2 ∧ cacheLookup k2 s'.cache = some a1) ∧
    ((cacheLookup k1 s.cache = none ∨ cacheLookup k2 s.cache = none) →
      swapOp s k1 k2 = none) := by
  constructor
  · intro a1 a2 h1 h2 hne
    obtain ⟨hval, hrb, hpos, hperm, hkeys, haddrs, hbound⟩ := hInv
    have hcknd : (s.cache.map Prod.fst).Nodup := (hperm.map Prod.fst).nodup_iff.2 hkeys
    have hm2 : (k2, a2) ∈ s.cache := cacheLookup_mem h2
    have h2c : cacheLookup k2 (cacheRemove k1 s.cache) = some a2 := by
      refine lookup_of_mem_nodup (cacheRemove_mem.2 ⟨hm2, fun hh => hne hh.symm⟩) ?_
      exact hcknd.sublist ((List.filter_sublist _).map Prod.fst)
    have hM1 : (k1, a1) ∈ RBTree.treeAssoc s.root :=
      hperm.mem_iff.1 (cacheLookup_mem h1)
    have hM2 : (k2, a2) ∈ RBTree.treeAssoc s.root := hperm.mem_iff.1 hm2
    have h3 : s.root.keyAt a1 = some k1 := keyAt_of_mem hM1 haddrs
    have h4 : s.root.keyAt a2 = some k2 := keyAt_of_mem hM2 haddrs
    have hsw : swapOp s k1 k2 =
        some ⟨RBTree.setKeyAt (RBTree.setKeyAt s.root a1 k2) a2 k1,
          cacheInsert k1 a2 (cacheInsert k2 a1
            (cacheRemove k2 (cacheRemove k1 s.cache))), s.nextAddr⟩ := by
      simp [swapOp, h1, h2c, h3, h4]
    obtain ⟨b1, b2, hb1, hb2, hbne, _, hroot', hnext', hl1, hl2, hInv'⟩ :=
      swap_spec ⟨hval, hrb, hpos, hperm, hkeys, haddrs, hbound⟩ hsw
    have hb1' : b1 = a1 := by
      rw [h1] at hb1
      exact (Option.some.inj hb1).symm
    have hb2' : b2 = a2 := by
      rw [h2] at hb2
      exact (Option.some.inj hb2).symm
    subst hb1'
    subst hb2'
    obtain ⟨_, _, _, hperm', _, haddrs', _⟩ := hInv'
    refine ⟨_, hsw, hroot', ?_, hnext', ?_, ?_, ?_, hl1, hl2⟩
    · rw [hroot', RBTree.eraseKeys_setKeyAt, RBTree.eraseKeys_setKeyAt]
    · refine keyAt_of_mem ?_ haddrs'
      exact hperm'.mem_iff.1 (cacheLookup_mem hl1)
    · refine keyAt_of_mem ?_ haddrs'
      exact hperm'.mem_iff.1 (cacheLookup_mem hl2)
    · intro q hq1 hq2
      rw [hroot', keyAt_setKeyAt_ne _ _ _ _ hq2,
        keyAt_setKeyAt_ne _ _ _ _ hq1]
  · intro hmiss
    rcases hmiss with hm | hm
    · simp [swapOp, hm]
    · rcases h1 : cacheLookup k1 s.cache with _ | a1
      · simp [swapOp, h1]
      · simp [swapOp, h1, cacheLookup_remove_none hm]

/-- Witness for C6: swapping keys `5` and `6` in the two-node tree of the
source's `swap_test`. -/
theorem spec_c6_witness :
    Inv ⟨.node 0 5 .black .root .nil
        (.node 1 6 .red (.child 0 .right) .nil .nil), [(6, 1), (5, 0)], 2⟩ ∧
    ∃ s', swapOp ⟨.node 0 5 .black .root .nil
        (.node 1 6 .red (.child 0 .right) .nil .nil), [(6, 1), (5, 0)], 2⟩ 5 6 =
        some s' ∧
      s'.root = RBTree.setKeyAt (RBTree.setKeyAt
        (.node 0 5 .black .root .nil
          (.node 1 6 .red (.child 0 .right) .nil .nil)) 0 6) 1 5 ∧
      RBTree.eraseKeys s'.root = RBTree.eraseKeys
        (.node 0 5 .black .root .nil
          (.node 1 6 .red (.child 0 .right) .nil .nil)) ∧
      s'.nextAddr = 2 ∧
      s'.root.keyAt 1 = some 5 ∧ s'.root.keyAt 0 = some 6 ∧
      (∀ q, q ≠ 0 → q ≠ 1 → s'.root.keyAt q =
        RBTree.keyAt (.node 0 5 .black .root .nil
          (.node 1 6 .red (.child 0 .right) .nil .nil)) q) ∧
      cacheLookup 5 s'.cache = some 1 ∧ cacheLookup 6 s'.cache = some 0 :=
  ⟨by decide, (spec_c6_swap ⟨.node 0 5 .black .root .nil
      (.node 1 6 .red (.child 0 .right) .nil .nil), [(6, 1), (5, 0)], 2⟩ 5 6
    (by decide)).1 0 1 (by decide) (by decide) (by decide)⟩

/-- C2 (corrected): a completing operation always preserves the black root,
position consistency, no-red-red, address uniqueness and the allocation
bound; it preserves black-height validity whenever it is not a delete; and
it preserves the index (cache/tree agreement and key uniqueness) whenever it
does not insert an already-indexed key.  A completing non-delete operation
on a fresh key therefore preserves the full invariant — but a completing
delete may break black-height consistency, so the spec's blanket statement
does not hold. -/
theorem spec_c2_invariants (s : RBState) (op : Op) (s' : RBState)
    (hInv : Inv s) (h : applyOp s op = some s') :
    s'.root.rootBlack ∧ RBTree.posOk s'.root .root ∧ RBTree.noRR s'.root ∧
      (RBTree.treeAddrs s'.root).Nodup ∧ RBTree.addrBound s'.root s'.nextAddr ∧
      (op.isDel = false → (RBTree.validB s'.root).isSome) ∧
      (op.freshKey s = true →
        s'.cache.Perm (RBTree.treeAssoc s'.root) ∧ (RBTree.treeKeys s'.root).Nodup) ∧
      (op.isDel = false → op.freshKey s = true → Inv s') := by
  cases op with
  | ins path k =>
    rcases hi : insertOp s path k with _ | ⟨s0, a⟩
    · rw [show applyOp s (.ins path k) = none from by simp [applyOp, hi]] at h
      cases h
    · have hs' : s' = s0 := by
        rw [show applyOp s (.ins path k) = some s0 from by simp [applyOp, hi]] at h
        exact (Option.some.inj h).symm
      subst hs'
      obtain ⟨h1, h2, h3, h4, h5, h6⟩ := insert_preserves hInv hi
      refine ⟨h1, h2, RBTree.validB_noRR h3, h4, h5, fun _ => h3, ?_, ?_⟩
      · intro hf
        exact h6 (by simpa [Op.freshKey, Option.isNone_iff_eq_none] using hf)
      · intro _ hf
        obtain ⟨hp, hn⟩ := h6 (by simpa [Op.freshKey, Option.isNone_iff_eq_none] using hf)
        exact ⟨h3, h1, h2, hp, hn, h4, h5⟩
  | del path =>
    have hd : deleteOp s path = some s' := h
    obtain ⟨h1, h2, h3, h4, h5, h6, h7⟩ := delete_preserves hInv hd
    refine ⟨h1, h2, h3, h6, h7, ?_, fun _ => ⟨h4, h5⟩, ?_⟩
    · intro hx
      simp [Op.isDel] at hx
    · intro hx
      simp [Op.isDel] at hx
  | swp k1 k2 =>
    have hsw : swapOp s k1 k2 = some s' := h
    obtain ⟨a1, a2, _, _, _, _, _, _, _, _, hInv'⟩ := swap_spec hInv hsw
    obtain ⟨hval, hrb, hpos, hperm, hkeys, haddrs, hbound⟩ := hInv'
    exact ⟨hrb, hpos, RBTree.validB_noRR hval, haddrs, hbound, fun _ => hval,
      fun _ => ⟨hperm, hkeys⟩, fun _ _ => ⟨hval, hrb, hpos, hperm, hkeys, haddrs, hbound⟩⟩
  | get k =>
    have hs : s' = s := (Option.some.inj h).symm
    subst hs
    obtain ⟨hval, hrb, hpos, hperm, hkeys, haddrs, hbound⟩ := hInv
    exact ⟨hrb, hpos, RBTree.validB_noRR hval, haddrs, hbound, fun _ => hval,
      fun _ => ⟨hperm, hkeys⟩, fun _ _ => ⟨hval, hrb, hpos, hperm, hkeys, haddrs, hbound⟩⟩

/-- Counterexample for C2: on a fully valid three-node all-black tree,
deleting the childless left child of the root completes (the code handles
childless nodes by unlinking them with no rebalancing), yet the resulting
tree violates black-height consistency: `validB` rejects it. -/
theorem spec_c2_counterexample :
    Inv ⟨.node 0 2 .black .root
        (.node 1 1 .black (.child 0 .left) .nil .nil)
        (.node 2 3 .black (.child 0 .right) .nil .nil),
      [(1, 1), (2, 0), (3, 2)], 3⟩ ∧
    applyOp ⟨.node 0 2 .black .root
        (.node 1 1 .black (.child 0 .left) .nil .nil)
        (.node 2 3 .black (.child 0 .right) .nil .nil),
      [(1, 1), (2, 0), (3, 2)], 3⟩ (.del [.left]) =
      some ⟨.node 0 2 .black .root .nil
          (.node 2 3 .black (.child 0 .right) .nil .nil),
        [(2, 0), (3, 2)], 3⟩ ∧
    RBTree.validB (.node 0 2 .black .root .nil
      (.node 2 3 .black (.child 0 .right) .nil .nil)) = none := by
  decide

/-- Witness for C2: inserting key `5` at the root of the empty state
completes and the resulting singleton state satisfies the full invariant. -/
theorem spec_c2_witness :
    Inv emptyState ∧
    applyOp emptyState (.ins [] 5) =
      some ⟨.node 0 5 .black .root .nil .nil, [(5, 0)], 1⟩ ∧
    Inv ⟨.node 0 5 .black .root .nil .nil, [(5, 0)], 1⟩ :=
  ⟨by decide, by decide,
    (spec_c2_invariants emptyState (.ins [] 5)
      ⟨.node 0 5 .black .root .nil .nil, [(5, 0)], 1⟩ (by decide)
      (by decide)).2.2.2.2.2.2.2 rfl rfl⟩

end Scenic
